import Mathlib

/-!
Verification development for the `eco` tree-manager editing core
(`lib/eco/treemanager.py`).

The node-chain module (`incparser.astree`: `TextNode`, `BOS`, `EOS`,
`next_term`/`prev_term` links, `insert_after`, `remove_child`, `insert`,
`backspace`, `get_root`, `get_magicterminal`) and the incremental
lexer/parser services are external to the tree manager source; their
behaviour is modelled from the specification (doc comments below starting
with "Modelled from the spec:").  Everything else is a direct transcription
of `treemanager.py`.

The original is Python 2: exceptions (IndexError, AttributeError on `None`,
failed assertions, unbounded loops) are modelled by `Option`, with `none`
meaning "the Python code raises or diverges here".  Python's negative list
indices, clamping slices and `None < int = True` ordering are reproduced by
the `py*` helpers.  Object identity becomes identity of arena ids: nodes
live in an arena `Nat → Node`, roots and parser bindings in lists indexed
by ids.  All chain walks take explicit fuel.
-/

namespace Eco

/-- Python 2 list read `l[i]`: negative indices count from the end; an index
out of range raises IndexError (`none`). -/
def pyGet {α : Type} (l : List α) (i : Int) : Option α :=
  if i < 0 then
    let j : Int := (l.length : Int) + i
    if j < 0 then none else l.get? j.toNat
  else l.get? i.toNat

/-- Python 2 list item assignment `l[i] = f l[i]`; IndexError is `none`. -/
def pySet {α : Type} (l : List α) (i : Int) (f : α → α) : Option (List α) :=
  if i < 0 then
    let j : Int := (l.length : Int) + i
    if j < 0 then none
    else match l.get? j.toNat with
      | none => none
      | some x => some (l.set j.toNat (f x))
  else match l.get? i.toNat with
    | none => none
    | some x => some (l.set i.toNat (f x))

/-- Python 2 `del l[i]`; IndexError is `none`. -/
def pyDelAt {α : Type} (l : List α) (i : Int) : Option (List α) :=
  if i < 0 then
    let j : Int := (l.length : Int) + i
    if j < 0 then none
    else if j.toNat < l.length then some (l.eraseIdx j.toNat) else none
  else if i.toNat < l.length then some (l.eraseIdx i.toNat) else none

/-- Normalise a Python slice bound to an index in `[0, l.length]`. -/
def pySliceBound {α : Type} (l : List α) (k : Int) : Nat :=
  if k < 0 then ((l.length : Int) + k).toNat else min k.toNat l.length

/-- Python 2 `del l[k:]` (keep the prefix `l[:k]`); slices never raise. -/
def pyDelFrom {α : Type} (l : List α) (k : Int) : List α :=
  l.take (pySliceBound l k)

/-- Python 2 `del l[a:b]`; slices never raise. -/
def pyDelSlice {α : Type} (l : List α) (a b : Int) : List α :=
  let na := pySliceBound l a
  let nb := pySliceBound l b
  l.take na ++ l.drop (max na nb)

/-- Python 2 `l.insert(i, x)`: the insertion position is clamped. -/
def pyInsertAt {α : Type} (l : List α) (i : Int) (x : α) : List α :=
  let n := if i < 0 then ((l.length : Int) + i).toNat else min i.toNat l.length
  l.take n ++ x :: l.drop n

/-- Python 2 string read `s[i]`; IndexError is `none`. -/
def pyStrAt (s : String) (i : Int) : Option Char :=
  if i < 0 then
    let j : Int := (s.length : Int) + i
    if j < 0 then none else s.toList.get? j.toNat
  else s.toList.get? i.toNat

/-- Python 2 string slice `s[:k]`. -/
def pySubTo (s : String) (k : Int) : String :=
  String.mk (s.toList.take (pySliceBound s.toList k))

/-- Python 2 string slice `s[k:]`. -/
def pySubFrom (s : String) (k : Int) : String :=
  String.mk (s.toList.drop (pySliceBound s.toList k))

/-- Python 2 `" " * n` style repetition. -/
def strRepeat (c : Char) (n : Nat) : String :=
  String.mk (List.replicate n c)

/-- Python 2 `s.startswith(p)` (a kernel-reducible `String.startsWith`). -/
def pyStartsWith (s p : String) : Bool :=
  p.toList.isPrefixOf s.toList

/-- Python 2 comparison `a < b` on optional ints: `None` sorts below every
int (`None < x` is true, `x < None` false, `None < None` false). -/
def pyOLt (a b : Option Int) : Bool :=
  match a, b with
  | none, none => false
  | none, some _ => true
  | some _, none => false
  | some x, some y => x < y

/-- Python 2 equality on optional ints. -/
def pyOEq (a b : Option Int) : Bool :=
  match a, b with
  | none, none => true
  | some x, some y => x == y
  | _, _ => false

/-- Python 2 comparison `a > b` on optional ints. -/
def pyOGt (a b : Option Int) : Bool := pyOLt b a

/-! ## The data model -/

/-- The symbol kinds of `grammar_parser.gparser` that the tree manager
distinguishes: ordinary `Terminal`, language-box boundary `MagicTerminal`,
synthetic `IndentationTerminal`. -/
inductive SymKind where
  | terminal
  | magicT
  | indentT
  deriving Repr, DecidableEq

/-- The node classes of `incparser.astree` the tree manager tests with
`isinstance`: the chain sentinels `BOS`/`EOS` and ordinary `TextNode`s. -/
inductive NodeCls where
  | bosC
  | eosC
  | textC
  deriving Repr, DecidableEq

/-- Modelled from the spec: one terminal node of a node chain.  `name` is
`node.symbol.name`, `lookup` the lexer-assigned lookup label, `nextT` and
`prevT` the `next_term`/`prev_term` links (`none` is Python `None`),
`root` the id of the owning root (`get_root`), `ast` the id of the nested
root for a `MagicTerminal` symbol (`symbol.ast`/`symbol.parser`),
`deleted` the flag read by `Cursor.fix`.  `image`/`plainMode` mirror the
image-node attributes; image rendering is out of scope, so `image` is
always `false` here. -/
structure Node where
  cls : NodeCls := NodeCls.textC
  symk : SymKind := SymKind.terminal
  name : String := ""
  lookup : String := ""
  nextT : Option Nat := none
  prevT : Option Nat := none
  root : Nat := 0
  ast : Option Nat := none
  deleted : Bool := false
  image : Bool := false
  plainMode : Bool := false
  deriving Repr, DecidableEq

/-- Modelled from the spec: one grammar root.  `bos`/`eos` are
`root.children[0]`/`root.children[-1]`, `magicBack` is
`root.get_magicterminal()` (the boundary node embedding this root, if
any). -/
structure RootRec where
  bos : Nat
  eos : Nat
  magicBack : Option Nat := none
  deriving Repr, DecidableEq

/-- Modelled from the spec: the node arena.  `nodes` maps a node id to its
record (ids at and above `size` are unused), `roots` maps a root id to its
record. -/
structure Doc where
  nodes : Nat → Node
  size : Nat
  roots : List RootRec

/-- Read a node from the arena. -/
def getN (d : Doc) (i : Nat) : Node := d.nodes i

/-- Write a node into the arena. -/
def setN (d : Doc) (i : Nat) (n : Node) : Doc :=
  { d with nodes := Function.update d.nodes i n }

/-- Allocate a fresh node, returning its id. -/
def alloc (d : Doc) (n : Node) : Doc × Nat :=
  ({ d with nodes := Function.update d.nodes d.size n, size := d.size + 1 }, d.size)

/-- Modelled from the spec: `node.get_root()` (stored back-pointer). -/
def get_root (d : Doc) (i : Nat) : Nat := (getN d i).root

/-- Modelled from the spec: `root.get_magicterminal()`. -/
def get_magicterminal (d : Doc) (r : Nat) : Option Nat :=
  match d.roots.get? r with
  | none => none
  | some rr => rr.magicBack

/-- Modelled from the spec: `node.insert_after(new)` splices the node `j`
into the doubly linked chain right after `i`; the spliced node joins `i`'s
root. -/
def insert_after (d : Doc) (i j : Nat) : Doc :=
  let ni := getN d i
  let d1 := setN d j { getN d j with nextT := ni.nextT, prevT := some i, root := ni.root }
  let d2 := setN d1 i { getN d1 i with nextT := some j }
  match ni.nextT with
  | none => d2
  | some k => setN d2 k { getN d2 k with prevT := some j }

/-- Modelled from the spec: `node.parent.remove_child(node)` splices node
`i` out of its chain and marks it deleted; the removed node keeps its own
links, and the nested tree of a removed boundary node becomes
unreachable. -/
def remove_child (d : Doc) (i : Nat) : Doc :=
  let n := getN d i
  let d1 := match n.prevT with
    | some p => setN d p { getN d p with nextT := n.nextT }
    | none => d
  let d2 := match n.nextT with
    | some q => setN d1 q { getN d1 q with prevT := n.prevT }
    | none => d1
  setN d2 i { getN d2 i with deleted := true }

/-- Modelled from the spec: `node.insert(text, pos)` splices `text` into the
node's text at Python position `pos`. -/
def node_insert (d : Doc) (i : Nat) (text : String) (pos : Int) : Doc :=
  let n := getN d i
  setN d i { n with name := pySubTo n.name pos ++ text ++ pySubFrom n.name pos }

/-- Modelled from the spec: `node.backspace(pos)` deletes the character at
Python position `pos` from the node's text and returns it
(`last_delchar`). -/
def node_backspace (d : Doc) (i : Nat) (pos : Int) : Option (Doc × String) := do
  let n := getN d i
  let c ← pyStrAt n.name pos
  pure (setN d i { n with name := pySubTo n.name pos ++ pySubFrom n.name (pos + 1) },
        String.mk [c])

/-- One record of the line index (`Line`). -/
structure Line where
  node : Nat
  height : Nat := 1
  width : Nat := 0
  indent : Int := 0
  ws : Int := 0
  deriving Repr, DecidableEq

/-- A cursor: node id, intra-node offset, cached line number. -/
structure Cursor where
  node : Nat
  pos : Int
  line : Int
  deriving Repr, DecidableEq

/-- One coalesced undo entry (`UndoObject`). -/
structure UndoObject where
  cmd : String
  text : String
  x1 : Int
  line1 : Int
  x2 : Int
  line2 : Int
  deriving Repr, DecidableEq

/-- The undo manager state (`UndoManager`). -/
structure UndoManager where
  stack : List UndoObject := []
  pos : Int := -1
  mode : String := "new"
  deriving Repr, DecidableEq

/-- One entry of the parser/lexer binding table: the tuple
`(parser, lexer, language)` of `TreeManager.parsers`, keyed by the root it
owns (`parser.previous_version.parent`).  `indentBased` is the external
lexer's `is_indentation_based()`. -/
structure ParserRec where
  root : Nat
  lang : String
  indentBased : Bool
  deriving Repr, DecidableEq

/-- The tree manager state. -/
structure TM where
  doc : Doc
  lines : List Line
  cursor : Cursor
  selection_start : Cursor
  selection_end : Cursor
  parsers : List ParserRec
  mainroot : Nat
  um : UndoManager
  changed : Bool := false
  last_delchar : String := ""

/-! ## Cursor -/

/-- `Cursor.is_visible`: structural indentation markers, the sentinels and
language-box boundary tokens are invisible; every other node (including a
zero-length `Terminal`) is visible. -/
def is_visible (d : Doc) (i : Nat) : Bool :=
  let n := getN d i
  if n.symk = SymKind.indentT then false
  else if n.cls = NodeCls.bosC then false
  else if n.cls = NodeCls.eosC then false
  else if n.symk = SymKind.magicT then false
  else true

/-- Loop body of `Cursor.find_next_visible`. -/
def fnvLoop (d : Doc) : Nat → Nat → Option Nat
  | 0, _ => none
  | fuel+1, i =>
    if is_visible d i then some i
    else
      let n := getN d i
      if n.cls = NodeCls.eosC then
        match get_magicterminal d n.root with
        | some lbox =>
          match (getN d lbox).nextT with
          | some j => fnvLoop d fuel j
          | none => none
        | none => some i
      else if n.symk = SymKind.magicT then
        match n.ast with
        | some r =>
          match d.roots.get? r with
          | some rr => fnvLoop d fuel rr.bos
          | none => none
        | none => none
      else
        match n.nextT with
        | some j => fnvLoop d fuel j
        | none => none

/-- `Cursor.find_next_visible`. -/
def find_next_visible (d : Doc) (fuel : Nat) (i : Nat) : Option Nat :=
  if is_visible d i ∨ (getN d i).symk = SymKind.magicT then
    match (getN d i).nextT with
    | some j => fnvLoop d fuel j
    | none => none
  else fnvLoop d fuel i

/-- Loop body of `Cursor.find_previous_visible`. -/
def fpvLoop (d : Doc) : Nat → Nat → Option Nat
  | 0, _ => none
  | fuel+1, i =>
    if is_visible d i then some i
    else
      let n := getN d i
      if n.cls = NodeCls.bosC then
        match get_magicterminal d n.root with
        | some lbox =>
          match (getN d lbox).prevT with
          | some j => fpvLoop d fuel j
          | none => none
        | none => some i
      else if n.symk = SymKind.magicT then
        match n.ast with
        | some r =>
          match d.roots.get? r with
          | some rr => fpvLoop d fuel rr.eos
          | none => none
        | none => none
      else
        match n.prevT with
        | some j => fpvLoop d fuel j
        | none => none

/-- `Cursor.find_previous_visible`. -/
def find_previous_visible (d : Doc) (fuel : Nat) (i : Nat) : Option Nat :=
  if is_visible d i then
    match (getN d i).prevT with
    | some j => fpvLoop d fuel j
    | none => none
  else fpvLoop d fuel i

/-- `Cursor.inside`. -/
def cursor_inside (d : Doc) (c : Cursor) : Bool :=
  0 < c.pos ∧ c.pos < ((getN d c.node).name.length : Int)

/-- `Cursor.isend`. -/
def cursor_isend (d : Doc) (c : Cursor) : Bool :=
  if (getN d c.node).symk = SymKind.magicT then true
  else c.pos == ((getN d c.node).name.length : Int)

/-- Loop body of `Cursor.get_x`: walk back over visible nodes summing text
lengths until a line break or `BOS` is met. -/
def getXLoop (d : Doc) (fuel : Nat) : Nat → Int → Nat → Option Int
  | 0, _, _ => none
  | steps+1, x, i =>
    let n := getN d i
    if n.name = "\r" ∨ n.cls = NodeCls.bosC then some x
    else
      match find_previous_visible d fuel i with
      | some p => getXLoop d fuel steps (x + (n.name.length : Int)) p
      | none => none

/-- `Cursor.get_x`, as a function of the cursor's node and offset (its only
inputs).  -/
def getXAux (d : Doc) (fuel : Nat) (nid : Nat) (pos : Int) : Option Int :=
  let n := getN d nid
  if n.name = "\r" ∨ n.cls = NodeCls.bosC then some 0
  else
    match find_previous_visible d fuel nid with
    | some p => getXLoop d fuel fuel pos p
    | none => none

/-- `Cursor.get_x`. -/
def getX (d : Doc) (fuel : Nat) (c : Cursor) : Option Int :=
  getXAux d fuel c.node c.pos

/-- `Cursor.__eq__`: node identity plus offset. -/
def cursorEqB (a b : Cursor) : Bool :=
  a.node == b.node && a.pos == b.pos

/-- `Cursor.__gt__`: line number first, then `get_x`. -/
def cursorGtB (d : Doc) (fuel : Nat) (a b : Cursor) : Option Bool :=
  if a.line > b.line then some true
  else if a.line < b.line then some false
  else do
    let xa ← getX d fuel a
    let xb ← getX d fuel b
    pure (xa > xb)

/-- `Cursor.__lt__`: `not (self > other or self == other)`. -/
def cursorLtB (d : Doc) (fuel : Nat) (a b : Cursor) : Option Bool := do
  let g ← cursorGtB d fuel a b
  pure (!(g || cursorEqB a b))

/-- `Cursor.left`. -/
def cursor_left (d : Doc) (fuel : Nat) (c : Cursor) : Option Cursor := do
  let node ←
    if is_visible d c.node then pure c.node
    else find_previous_visible d fuel c.node
  if (getN d node).name = "\r" then pure c
  else if (getN d node).cls = NodeCls.bosC then pure c
  else
    let c :=
      if node ≠ c.node then
        { c with node := node, pos := ((getN d node).name.length : Int) }
      else c
    if c.pos > 1 ∧ (¬(getN d node).image ∨ (getN d node).plainMode) then
      pure { c with pos := c.pos - 1 }
    else do
      let p ← find_previous_visible d fuel node
      pure { c with node := p, pos := ((getN d p).name.length : Int) }

/-- First loop of `Cursor.fix`: while the node is deleted, reset the offset
and step left. -/
def fixLoop1 (d : Doc) (fuel : Nat) : Nat → Cursor → Option Cursor
  | 0, _ => none
  | steps+1, c =>
    if (getN d c.node).deleted then do
      let c' ← cursor_left d fuel { c with pos := 0 }
      fixLoop1 d fuel steps c'
    else some c

/-- Second loop of `Cursor.fix`: move offset overflow into following
nodes. -/
def fixLoop2 (d : Doc) : Nat → Cursor → Option Cursor
  | 0, _ => none
  | steps+1, c =>
    let n := getN d c.node
    if c.pos > (n.name.length : Int) then
      match n.nextT with
      | some nx => fixLoop2 d steps { c with pos := c.pos - (n.name.length : Int), node := nx }
      | none => none
    else some c

/-- `Cursor.fix`. -/
def cursor_fix (d : Doc) (fuel : Nat) (c : Cursor) : Option Cursor := do
  let c ← fixLoop1 d fuel fuel c
  fixLoop2 d fuel c

/-- Loop body of `Cursor.move_to_x`. -/
def mtxLoop (d : Doc) (fuel : Nat) : Nat → Int → Nat → Cursor → Option Cursor
  | 0, _, _, _ => none
  | steps+1, x, node, c =>
    if x > 0 then do
      let newnode ← find_next_visible d fuel node
      if newnode = node then
        pure { c with node := node, pos := ((getN d node).name.length : Int) }
      else
        let x := x - ((getN d newnode).name.length : Int)
        if (getN d newnode).name = "\r" ∨ (getN d newnode).cls = NodeCls.eosC then do
          let p ← find_previous_visible d fuel newnode
          pure { c with node := p, pos := ((getN d p).name.length : Int) }
        else
          mtxLoop d fuel steps x newnode c
    else
      pure { c with pos := ((getN d node).name.length : Int) + x, node := node }

/-- `Cursor.move_to_x`. -/
def move_to_x (d : Doc) (fuel : Nat) (x : Int) (lines : List Line) (c : Cursor) :
    Option Cursor := do
  let ln ← pyGet lines c.line
  mtxLoop d fuel fuel x ln.node c

/-! ## UndoManager -/

/-- Replace the last element of a list (`self.stack[-1]` is mutated in
place). -/
def modifyLast {α : Type} (l : List α) (f : α → α) : List α :=
  match l.getLast? with
  | none => l
  | some x => l.dropLast ++ [f x]

/-- `UndoManager.add`, lines 244-259: the coalescing decision and the
redo-tail truncation, before the size cap is enforced.  `gx` is the value
of `cursor.get_x()` (evaluated in every branch of the original).  An
unknown command kind leaves `x` unbound in Python (`none` here); coalescing
into an empty stack raises IndexError (`none`). -/
def um_addCore (gx line : Int) (um : UndoManager) (cmd text : String) :
    Option UndoManager :=
  if (if text = " " || pyStartsWith text "\r" then "new" else um.mode) ≠ cmd then
    match (if cmd = "insert" then some (gx - (text.length : Int))
           else if cmd = "delete" then some (gx + (text.length : Int))
           else none) with
    | none => none
    | some x =>
      some { stack := pyDelFrom um.stack (um.pos + 1) ++
               [⟨cmd, text, x, line, (text.length : Int), line⟩],
             pos := um.pos + 1, mode := cmd }
  else
    match um.stack.getLast? with
    | none => none
    | some _ =>
      some { stack := modifyLast um.stack
               (fun uo => { uo with text := uo.text ++ text, x2 := gx, line2 := line }),
             pos := um.pos,
             mode := if text = " " || pyStartsWith text "\r" then "new" else um.mode }

/-- `UndoManager.add`, lines 244-263: the coalescing step followed by the
size cap (`len(stack) > 100` drops the front entry and shifts the
position). -/
def um_add (gx line : Int) (um : UndoManager) (cmd text : String) :
    Option UndoManager := do
  let um ← um_addCore gx line um cmd text
  if um.stack.length > 100 then
    pure { um with stack := um.stack.drop 1, pos := um.pos - 1 }
  else
    pure um

/-- `UndoManager.finish`. -/
def um_finish (um : UndoManager) : UndoManager := { um with mode := "new" }

/-! ## TreeManager: bindings, selection, analysis -/

/-- `TreeManager.hasSelection` (`__ne__` on cursors is the negation of
`__eq__`). -/
def hasSelection (tm : TM) : Bool :=
  !(cursorEqB tm.selection_start tm.selection_end)

/-- `TreeManager.get_eos`: `parsers[0][0].previous_version.parent.children[-1]`. -/
def get_eos (tm : TM) : Option Nat := do
  let p ← tm.parsers.get? 0
  let rr ← tm.doc.roots.get? p.root
  pure rr.eos

/-- `TreeManager.get_bos`. -/
def get_bos (tm : TM) : Option Nat := do
  let p ← tm.parsers.get? 0
  let rr ← tm.doc.roots.get? p.root
  pure rr.bos

/-- Inner loop of `TreeManager.delete_parser`: Python removes while
iterating, so the element after a removed entry is skipped. -/
def delParserGo (root : Nat) : Nat → List ParserRec → Nat → List ParserRec
  | 0, l, _ => l
  | steps+1, l, i =>
    match l.get? i with
    | none => l
    | some p =>
      if p.root == root then delParserGo root steps (l.eraseIdx i) (i + 1)
      else delParserGo root steps l (i + 1)

/-- `TreeManager.delete_parser`. -/
def deleteParser (tm : TM) (root : Nat) : TM :=
  { tm with parsers := delParserGo root (tm.parsers.length + 1) tm.parsers 0 }

/-- `TreeManager.get_parser`/`get_lexer` lookup: the first binding whose
root matches, `none` when the loop falls through. -/
def findParser (tm : TM) (root : Nat) : Option ParserRec :=
  tm.parsers.find? (fun p => p.root == root)

/-- `TreeManager.relex`.  Modelled from the spec: the incremental lexer is
an external service that re-tokenizes around a node; the model keeps the
chain unchanged (a text-preserving run).  Looking up a lexer for an unbound
root dereferences `None` in Python (`none`). -/
def relex (tm : TM) (i : Nat) : Option TM :=
  match findParser tm (get_root tm.doc i) with
  | some _ => some tm
  | none => none

/-- `TreeManager.reparse`.  Modelled from the spec: the incremental parser
is an external service; the model keeps the tree unchanged. -/
def reparse (tm : TM) (i : Nat) : Option TM :=
  match findParser tm (get_root tm.doc i) with
  | some _ => some tm
  | none => none

/-- `TreeManager.get_languagebox`. -/
def get_languagebox (tm : TM) (i : Nat) : Option Nat :=
  get_magicterminal tm.doc (get_root tm.doc i)

/-- `TreeManager.is_same_language`: compares the two `get_root` results by
identity (a root is its own root). -/
def is_same_language (r1 r2 : Nat) : Bool := r1 == r2

/-- Loop body of `TreeManager.is_logical_line`. -/
def illLoop (d : Doc) : Nat → Nat → Option Bool
  | 0, _ => none
  | steps+1, i =>
    let n := getN d i
    if n.cls = NodeCls.eosC then some false
    else if n.lookup = "<return>" then some false
    else if n.lookup = "<ws>" then
      match n.nextT with
      | some j => illLoop d steps j
      | none => none
    else if n.symk = SymKind.indentT then
      match n.nextT with
      | some j => illLoop d steps j
      | none => none
    else some true

/-- `TreeManager.is_logical_line`. -/
def is_logical_line (tm : TM) (fuel : Nat) (y : Int) : Option Bool := do
  let ln ← pyGet tm.lines y
  let nx ← (getN tm.doc ln.node).nextT
  illLoop tm.doc fuel nx

/-- Skip over `IndentationTerminal` nodes following `i` (shared loop shape
of `get_indentation` and `key_normal`). -/
def skipIndentNext (d : Doc) : Nat → Nat → Option Nat
  | 0, _ => none
  | steps+1, i =>
    if (getN d i).symk = SymKind.indentT then
      match (getN d i).nextT with
      | some j => skipIndentNext d steps j
      | none => none
    else some i

/-- `TreeManager.get_indentation`: the outer `Option` is a raised
exception, the inner one is the Python `None` result for a non-logical
line. -/
def get_indentation (tm : TM) (fuel : Nat) (y : Int) : Option (Option Int) := do
  let log ← is_logical_line tm fuel y
  if !log then pure none
  else do
    let ln ← pyGet tm.lines y
    let n0 ← (getN tm.doc ln.node).nextT
    let i ← skipIndentNext tm.doc fuel n0
    let n := getN tm.doc i
    if n.lookup = "<ws>" then pure (some (n.name.length : Int))
    else pure (some 0)

/-! ## Line index -/

/-- Loop body of `TreeManager.rescan_linebreaks`: walk from one line-break
node to the next known one, registering every `"\r"` node found on the way
and diving into language boxes.  An `EOS` without an enclosing box that is
not the target loops forever in Python (fuel runs out, `none`). -/
def rlbLoop (d : Doc) : Nat → List Line → Int → Nat → Nat → Option (List Line)
  | 0, _, _, _, _ => none
  | steps+1, lines, y, current, next =>
    if current = next then some lines
    else
      let n := getN d current
      let (lines, y) :=
        if n.name = "\r" then (pyInsertAt lines (y + 1) { node := current }, y + 1)
        else (lines, y)
      if n.symk = SymKind.magicT then
        match n.ast with
        | some r =>
          match d.roots.get? r with
          | some rr => rlbLoop d steps lines y rr.bos next
          | none => none
        | none => none
      else if n.cls = NodeCls.eosC then
        match get_magicterminal d n.root with
        | some lbox =>
          match (getN d lbox).nextT with
          | some j => rlbLoop d steps lines y j next
          | none => none
        | none => rlbLoop d steps lines y current next
      else
        match n.nextT with
        | some j => rlbLoop d steps lines y j next
        | none => none

/-- `TreeManager.rescan_linebreaks`. -/
def rescan_linebreaks (tm : TM) (fuel : Nat) (y : Int) : Option TM := do
  let ln ← pyGet tm.lines y
  let next ←
    match pyGet tm.lines (y + 1) with
    | some l2 => pure l2.node
    | none => get_eos tm
  let current ← (getN tm.doc ln.node).nextT
  let lines ← rlbLoop tm.doc fuel tm.lines y current next
  pure { tm with lines := lines }

/-- `TreeManager.delete_linebreak`: asserts that the node being deleted is
the anchor of the following line record, then drops that record. -/
def delete_linebreak (tm : TM) (y : Int) (node : Nat) : Option TM := do
  let _ ← pyGet tm.lines y
  let l2 ← pyGet tm.lines (y + 1)
  if l2.node = node then do
    let lines ← pyDelAt tm.lines (y + 1)
    pure { tm with lines := lines }
  else none

/-! ## Indentation engine -/

/-- Loop of `TreeManager.remove_indentation_nodes`. -/
def rinGo (d : Doc) : Nat → Nat → Option (Doc × Option Nat)
  | 0, _ => none
  | steps+1, i =>
    if (getN d i).symk = SymKind.indentT then
      let d := remove_child d i
      match (getN d i).nextT with
      | some j => rinGo d steps j
      | none => none
    else some (d, some i)

/-- `TreeManager.remove_indentation_nodes`. -/
def remove_indentation_nodes (d : Doc) (fuel : Nat) (node : Option Nat) :
    Option (Doc × Option Nat) :=
  match node with
  | none => some (d, none)
  | some i => rinGo d fuel i

/-- Loop of `TreeManager.find_indentation`: scan backwards, skipping
non-logical lines, stopping at the first line whose whitespace is equal
(returning its indent) or smaller (returning `None`). -/
def fiLoop (tm : TM) (fuel : Nat) (thisWs : Option Int) : Nat → Int → Option (Option Int)
  | 0, _ => none
  | steps+1, dy =>
    if dy > 0 then do
      let dy := dy - 1
      let prevWs ← get_indentation tm fuel dy
      match prevWs with
      | none => fiLoop tm fuel thisWs steps dy
      | some _ =>
        if pyOEq prevWs thisWs then do
          let ln ← pyGet tm.lines dy
          pure (some ln.indent)
        else if pyOLt prevWs thisWs then pure none
        else fiLoop tm fuel thisWs steps dy
    else pure none

/-- `TreeManager.find_indentation`. -/
def find_indentation (tm : TM) (fuel : Nat) (y : Int) : Option (Option Int) := do
  let thisWs ← get_indentation tm fuel y
  fiLoop tm fuel thisWs fuel y

/-- Loop of `TreeManager.update_indentation_backwards`. -/
def uibLoop (tm : TM) (fuel : Nat) (y : Int) (root : Nat) (ws : Option Int) :
    Nat → Int → Bool → Option (List Line)
  | 0, _, _ => none
  | steps+1, dy, foundSmaller =>
    if dy > 0 then do
      let dy := dy - 1
      let log ← is_logical_line tm fuel dy
      if !log then uibLoop tm fuel y root ws steps dy foundSmaller
      else do
        let ln ← pyGet tm.lines dy
        let otherRoot := get_root tm.doc ln.node
        if ¬is_same_language root otherRoot then
          uibLoop tm fuel y root ws steps dy foundSmaller
        else do
          let prevWs ← get_indentation tm fuel dy
          if pyOLt ws prevWs then uibLoop tm fuel y root ws steps dy true
          else if pyOEq ws prevWs then
            pySet tm.lines y (fun l => { l with indent := ln.indent })
          else if pyOGt ws prevWs then
            if ¬foundSmaller then
              pySet tm.lines y (fun l => { l with indent := ln.indent + 1 })
            else pure tm.lines
          else pure tm.lines
    else pure tm.lines

/-- `TreeManager.update_indentation_backwards`. -/
def update_indentation_backwards (tm : TM) (fuel : Nat) (y : Int) : Option TM := do
  let ln ← pyGet tm.lines y
  let root := get_root tm.doc ln.node
  let ws ← get_indentation tm fuel y
  let lines ← uibLoop tm fuel y root ws fuel y false
  pure { tm with lines := lines }

/-- Collect the names of the `IndentationTerminal` nodes following node
`i`, in chain order (`indentation_nodes_changed`'s first loop). -/
def collectIndentNames (d : Doc) : Nat → Nat → Option (List String)
  | 0, _ => none
  | steps+1, i =>
    if (getN d i).symk = SymKind.indentT then
      match (getN d i).nextT with
      | some j => do
        let rest ← collectIndentNames d steps j
        pure ((getN d i).name :: rest)
      | none => none
    else some []

/-- `TreeManager.indentation_nodes_changed` (returns `True` when the nodes
are unchanged): the chain-order nodes are reversed before comparison with
the freshly generated list. -/
def indentation_nodes_changed (tm : TM) (fuel : Nat) (y : Int)
    (names : List String) : Option Bool := do
  let ln ← pyGet tm.lines y
  let nx ← (getN tm.doc ln.node).nextT
  let previous ← collectIndentNames tm.doc fuel nx
  pure (previous.reverse == names)

/-- Insert freshly allocated `IndentationTerminal` nodes one by one right
after `anchor` (`for node in new_indent_nodes: newline.insert_after(node)`;
each insertion pushes the previous ones back, so the chain stores the list
reversed). -/
def insertMarkers (d : Doc) (anchor : Nat) : List String → Doc
  | [] => d
  | m :: rest =>
    let (d, nid) := alloc d { symk := SymKind.indentT, name := m }
    let d := insert_after d anchor nid
    insertMarkers d anchor rest

/-- Backward search loop at the head of `repair_indentation`: find the
nearest preceding line that is logical and belongs to the same grammar
root. -/
def riDyLoop (tm : TM) (fuel : Nat) (root : Nat) : Nat → Int → Option Int
  | 0, _ => none
  | steps+1, dy => do
    let log ← is_logical_line tm fuel dy
    let ln ← pyGet tm.lines dy
    let other := get_root tm.doc ln.node
    if log ∧ is_same_language root other then pure dy
    else riDyLoop tm fuel root steps (dy - 1)

/-- Cleanup loop at the tail of `repair_indentation`: strip the
indentation nodes sitting right before `EOS`. -/
def riEosCleanup (d : Doc) : Nat → Nat → Option (Doc × Nat)
  | 0, _ => none
  | steps+1, i =>
    if (getN d i).symk = SymKind.indentT then
      let d := remove_child d i
      match (getN d i).prevT with
      | some j => riEosCleanup d steps j
      | none => none
    else some (d, i)

/-- Backtracking loop at the tail of `repair_indentation`: while the line is
not logical and positive, step back. -/
def riBackLoop (tm : TM) (fuel : Nat) : Nat → Int → Option Int
  | 0, _ => none
  | steps+1, y => do
    let log ← is_logical_line tm fuel y
    if ¬log ∧ y > 0 then riBackLoop tm fuel steps (y - 1)
    else pure y

/-- The marker list generated by the comparison in
`repair_indentation` (`new_indent_nodes`, in emission order), together with
the updated line record list.  Mirrors lines 1026-1060. -/
def riMarkers (tm : TM) (fuel : Nat) (y : Int) : Option (List String × List Line) := do
  if y = 0 then do
    let lines ← pySet tm.lines y (fun l => { l with indent := 0 })
    pure ([], lines)
  else do
    let log ← is_logical_line tm fuel y
    if !log then pure ([], tm.lines)
    else do
      let thisWsOpt ← get_indentation tm fuel y
      let thisWs ← thisWsOpt
      let lines ← pySet tm.lines y (fun l => { l with ws := thisWs })
      let tm := { tm with lines := lines }
      let ln ← pyGet tm.lines y
      let root := get_root tm.doc ln.node
      let dy ← riDyLoop tm fuel root fuel (y - 1)
      let prevWsOpt ← get_indentation tm fuel dy
      if pyOEq prevWsOpt thisWsOpt then do
        let dln ← pyGet tm.lines dy
        let lines ← pySet tm.lines y (fun l => { l with indent := dln.indent })
        pure (["NEWLINE"], lines)
      else if pyOLt prevWsOpt thisWsOpt then do
        let dln ← pyGet tm.lines dy
        let lines ← pySet tm.lines y (fun l => { l with indent := dln.indent + 1 })
        pure (["INDENT", "NEWLINE"], lines)
      else if pyOGt prevWsOpt thisWsOpt then do
        let thisIndent ← find_indentation tm fuel y
        match thisIndent with
        | none => pure (["UNBALANCED"], tm.lines)
        | some ti => do
          let lines ← pySet tm.lines y (fun l => { l with indent := ti })
          let dln ← pyGet lines dy
          let diff := dln.indent - ti
          pure (List.replicate diff.toNat "DEDENT" ++ ["NEWLINE"], lines)
      else pure ([], tm.lines)

/-- `TreeManager.repair_indentation`. -/
def repair_indentation (tm : TM) (fuel : Nat) (y : Int) : Option TM := do
  let ln ← pyGet tm.lines y
  let newline := ln.node
  let root := get_root tm.doc newline
  let lx ← findParser tm root
  if ¬lx.indentBased then pure tm
  else do
    let (names, lines) ← riMarkers tm fuel y
    let tm := { tm with lines := lines }
    let asBefore ← indentation_nodes_changed tm fuel y names
    let tm ←
      if !asBefore then do
        let (d, _) ← remove_indentation_nodes tm.doc fuel (getN tm.doc newline).nextT
        let d := insertMarkers d newline names
        pure { tm with doc := d }
      else pure tm
    if y = (tm.lines.length : Int) - 1 then do
      let rr ← tm.doc.roots.get? (get_root tm.doc newline)
      let p0 ← (getN tm.doc rr.eos).prevT
      let (d, anchor) ← riEosCleanup tm.doc fuel p0
      let tm := { tm with doc := d }
      let y' ← riBackLoop tm fuel fuel y
      let ln' ← pyGet tm.lines y'
      let d := insertMarkers tm.doc anchor
        (List.replicate ln'.indent.toNat "DEDENT" ++ ["NEWLINE"])
      pure { tm with doc := d }
    else pure tm

/-- Forward-repair loop of `TreeManager.rescan_indentations` (the
`for i in range(y+1, len(lines))` body with `continue` and `break`). -/
def rsiLoop (fuel : Nat) :
    Nat → TM → Int → Int → Option Int → Int → Option TM
  | 0, _, _, _, _, _ => none
  | steps+1, tm, i, threshold, currentWs, currentIndent =>
    if i < (tm.lines.length : Int) then do
      let ws ← get_indentation tm fuel i
      match ws with
      | none => rsiLoop fuel steps tm (i + 1) threshold currentWs currentIndent
      | some _ => do
        let lines ←
          if pyOGt ws currentWs then
            pySet tm.lines i (fun l => { l with indent := currentIndent + 1 })
          else pure tm.lines
        let tm := { tm with lines := lines }
        let lines ←
          if pyOEq ws currentWs then
            pySet tm.lines i (fun l => { l with indent := currentIndent })
          else pure tm.lines
        let tm := { tm with lines := lines }
        let tm ←
          if pyOLt ws currentWs then update_indentation_backwards tm fuel i
          else pure tm
        let tm ← repair_indentation tm fuel i
        let ln ← pyGet tm.lines i
        if ln.ws ≤ threshold then pure tm
        else rsiLoop fuel steps tm (i + 1) threshold ws ln.indent
    else pure tm

/-- Skip-ahead loop at the head of `TreeManager.rescan_indentations`. -/
def rsiSkip (tm : TM) (fuel : Nat) : Nat → Int → Option (Option Int)
  | 0, _ => none
  | steps+1, y => do
    let log ← is_logical_line tm fuel y
    if !log then
      let y := y + 1
      if y ≥ (tm.lines.length : Int) then pure none
      else rsiSkip tm fuel steps y
    else pure (some y)

/-- `TreeManager.rescan_indentations`. -/
def rescan_indentations (tm : TM) (fuel : Nat) (y : Int) : Option TM := do
  let log ← is_logical_line tm fuel y
  let (tm, yOpt) ←
    if !log then do
      let ln ← pyGet tm.lines y
      let (d, _) ← remove_indentation_nodes tm.doc fuel (getN tm.doc ln.node).nextT
      let tm' := { tm with doc := d }
      let y := y + 1
      if y < (tm'.lines.length : Int) then do
        let r ← rsiSkip tm' fuel fuel y
        pure (tm', r)
      else pure (tm', some ((tm'.lines.length : Int) - 1))
    else pure (tm, some y)
  match yOpt with
  | none => pure tm
  | some y => do
    let lnBefore ← pyGet tm.lines y
    let before := lnBefore.ws
    let tm ← update_indentation_backwards tm fuel y
    let tm ← repair_indentation tm fuel y
    let lnAfter ← pyGet tm.lines y
    let after := lnAfter.ws
    let threshold := min before after
    let currentIndent := lnAfter.indent
    let currentWs ← get_indentation tm fuel y
    rsiLoop fuel fuel tm (y + 1) threshold currentWs currentIndent

/-! ## Selection -/

/-- Traversal loop of `TreeManager.get_nodes_from_selection`: collect the
terminals strictly between `node` and `endN`, diving into and out of
language boxes. -/
def gnfsLoop (d : Doc) : Nat → List Nat → Nat → Nat → Option (List Nat)
  | 0, _, _, _ => none
  | steps+1, acc, node, endN =>
    if node = endN then some acc
    else
      let n := getN d node
      if n.symk = SymKind.magicT then
        match n.ast with
        | some r =>
          match d.roots.get? r with
          | some rr => gnfsLoop d steps acc rr.bos endN
          | none => none
        | none => none
      else if n.cls = NodeCls.eosC then
        match get_magicterminal d n.root with
        | some magic =>
          match (getN d magic).nextT with
          | some j => gnfsLoop d steps acc j endN
          | none => none
        | none =>
          match n.nextT with
          | some j => gnfsLoop d steps (acc ++ [node]) j endN
          | none => none
      else
        match n.nextT with
        | some j => gnfsLoop d steps (acc ++ [node]) j endN
        | none => none

/-- `TreeManager.get_nodes_from_selection`: the outer `Option` is a raised
exception, the inner one is the bare `return` for an empty selection.
Python's two-argument `min`/`max` test `b < a` resp. `b > a`.  The dead
assignment `start = start_node.next_term` before the reassignment
`start = start_node` is omitted. -/
def get_nodes_from_selection (tm : TM) (fuel : Nat) :
    Option (Option (List Nat × Int × Int)) := do
  let lt ← cursorLtB tm.doc fuel tm.selection_end tm.selection_start
  let curStart := if lt then tm.selection_end else tm.selection_start
  let gt ← cursorGtB tm.doc fuel tm.selection_end tm.selection_start
  let curEnd := if gt then tm.selection_end else tm.selection_start
  if cursorEqB curStart curEnd then pure none
  else do
    let startNode := curStart.node
    let (diffStart, includeStart) :=
      if cursor_inside tm.doc curStart then (curStart.pos, true) else ((0 : Int), false)
    let endNode := curEnd.node
    let diffEnd :=
      if cursor_inside tm.doc curEnd then curEnd.pos
      else ((getN tm.doc endNode).name.length : Int)
    if startNode = endNode then pure (some ([startNode], diffStart, diffEnd))
    else if (getN tm.doc startNode).cls = NodeCls.eosC then pure (some ([], 0, 0))
    else do
      let acc := if includeStart then [startNode] else []
      let first ← (getN tm.doc startNode).nextT
      let nodes ← gnfsLoop tm.doc fuel acc first endNode
      pure (some (nodes ++ [endNode], diffStart, diffEnd))

/-- `TreeManager.delete_if_empty`. -/
def delete_if_empty (tm : TM) (i : Nat) : TM :=
  if (getN tm.doc i).name = "" then { tm with doc := remove_child tm.doc i } else tm

/-- `TreeManager.deleteSelection`. -/
def deleteSelection (tm : TM) (fuel : Nat) : Option TM := do
  let res ← get_nodes_from_selection tm fuel
  let (nodes, diffStart, diffEnd) ← res
  let first ← nodes.get? 0
  let repairNode0 := (getN tm.doc first).prevT
  let tm ←
    if nodes.length = 1 then do
      let n := getN tm.doc first
      let d := setN tm.doc first
        { n with name := pySubTo n.name diffStart ++ pySubFrom n.name diffEnd }
      pure (delete_if_empty { tm with doc := d } first)
    else do
      let last ← nodes.getLast?
      let n := getN tm.doc first
      let d := setN tm.doc first { n with name := pySubTo n.name diffStart }
      let nl := getN d last
      let d := setN d last { nl with name := pySubFrom nl.name diffEnd }
      let tm := delete_if_empty { tm with doc := d } first
      pure (delete_if_empty tm last)
  let d := ((nodes.drop 1).dropLast).foldl (fun d n => remove_child d n) tm.doc
  let tm := { tm with doc := d }
  let rn ← repairNode0
  let rn2 ← (getN tm.doc rn).nextT
  let tm ← relex tm rn2
  let lt ← cursorLtB tm.doc fuel tm.selection_end tm.selection_start
  let curStart := if lt then tm.selection_end else tm.selection_start
  let gt ← cursorGtB tm.doc fuel tm.selection_end tm.selection_start
  let curEnd := if gt then tm.selection_end else tm.selection_start
  let tm := { tm with cursor := curStart, selection_end := curStart }
  let tm := { tm with lines := pyDelSlice tm.lines (curStart.line + 1) (curEnd.line + 1) }
  let tm := { tm with selection_start := tm.cursor, selection_end := tm.cursor }
  pure { tm with changed := true }

/-! ## Edit operations -/

/-- `TreeManager.leave_languagebox`. -/
def leave_languagebox (tm : TM) : Option TM := do
  let nx ← (getN tm.doc tm.cursor.node).nextT
  if (getN tm.doc nx).symk = SymKind.magicT ∧ cursor_isend tm.doc tm.cursor then do
    let r ← (getN tm.doc nx).ast
    let rr ← tm.doc.roots.get? r
    pure { tm with cursor := { tm.cursor with node := rr.bos, pos := 0 } }
  else
    match get_languagebox tm tm.cursor.node with
    | some lbox => pure { tm with cursor := { tm.cursor with node := lbox, pos := 0 } }
    | none => pure tm

/-- Run a state action for `i = 0, 1, ..., n-1` (`for i in range(n)`). -/
def forRangeTM (f : Nat → TM → Option TM) : Nat → Nat → TM → Option TM
  | 0, _, tm => some tm
  | n+1, i, tm => do
    let tm ← f i tm
    forRangeTM f n (i + 1) tm

/-- `TreeManager.post_keypress`. -/
def post_keypress (tm : TM) (fuel : Nat) (text : String) : Option TM := do
  let linesBefore : Int := tm.lines.length
  let tm ← rescan_linebreaks tm fuel tm.cursor.line
  let newLines : Int := (tm.lines.length : Int) - linesBefore
  let tm ← forRangeTM
    (fun i tm => rescan_indentations tm fuel (tm.cursor.line + i))
    (newLines + 1).toNat 0 tm
  if text ≠ "" ∧ text.toList.head? = some '\r' then
    pure { tm with cursor := { tm.cursor with line := tm.cursor.line + 1 } }
  else pure tm

/-- `TreeManager.key_normal`: insert `text` at the cursor.  Returns the
updated state and the carried-over indentation (the method's return
value). -/
def key_normal (fuel : Nat) (undo_mode : Bool) (text : String) (tm : TM) :
    Option (TM × Int) := do
  let tm ← if hasSelection tm then deleteSelection tm fuel else pure tm
  let (text, indentation) ←
    if text = "\r" then do
      let ind ← get_indentation tm fuel tm.cursor.line
      let ind : Int := match ind with | none => 0 | some i => i
      pure (text ++ strRepeat ' ' ind.toNat, ind)
    else pure (text, (0 : Int))
  let node := tm.cursor.node
  let (tm, node) ←
    if (getN tm.doc node).image ∧ ¬(getN tm.doc node).plainMode then do
      let tm ← leave_languagebox tm
      pure (tm, tm.cursor.node)
    else pure (tm, node)
  let (tm, node) ←
    if cursor_inside tm.doc tm.cursor then
      pure ({ tm with doc := node_insert tm.doc node text tm.cursor.pos }, node)
    else
      if pyStartsWith text "\r" then do
        let (d, newid) := alloc tm.doc {}
        let d := insert_after d node newid
        let d := node_insert d newid text 0
        let c := { tm.cursor with node := newid, pos := (0 : Int) }
        pure ({ tm with doc := d, cursor := c }, newid)
      else if (getN tm.doc node).cls = NodeCls.bosC ∨ (getN tm.doc node).name = "\r" ∨
              (getN tm.doc node).symk = SymKind.magicT then do
        let old ←
          match (getN tm.doc node).nextT with
          | some nx => do
            let o ← skipIndentNext tm.doc fuel nx
            (getN tm.doc o).prevT
          | none => pure node
        let (d, newid) := alloc tm.doc {}
        let d := insert_after d old newid
        let d := node_insert d newid text 0
        let c := { tm.cursor with node := newid, pos := (0 : Int) }
        pure ({ tm with doc := d, cursor := c }, newid)
      else
        let c := { tm.cursor with node := node }
        pure ({ tm with doc := node_insert tm.doc node text tm.cursor.pos, cursor := c },
              node)
  let tm := { tm with cursor := { tm.cursor with pos := tm.cursor.pos + text.length } }
  let tm ← relex tm node
  let c ← cursor_fix tm.doc fuel tm.cursor
  let tm := { tm with cursor := c }
  let tm ← post_keypress tm fuel text
  let tm ← reparse tm node
  let tm ←
    if undo_mode then do
      let gx ← getX tm.doc fuel tm.cursor
      let um ← um_add gx tm.cursor.line tm.um "insert" text
      pure { tm with um := um }
    else pure tm
  pure ({ tm with changed := true }, indentation)

/-- Shared tail of `TreeManager.key_delete` (the statements after the
branch on the cursor position). -/
def key_deleteTail (tm : TM) (fuel : Nat) (undo_mode : Bool) (repairnode : Nat) :
    Option TM := do
  let tm ← post_keypress tm fuel ""
  let tm ← reparse tm repairnode
  let tm ←
    if undo_mode then do
      let gx ← getX tm.doc fuel tm.cursor
      let um ← um_add gx tm.cursor.line tm.um "delete" tm.last_delchar
      pure { tm with um := um }
    else pure tm
  pure { tm with changed := true }

/-- `TreeManager.key_delete`: forward-delete one visible character.  The
nested-box recursion (`leave_languagebox(); key_delete(); return`) consumes
fuel; note the recursive call reverts to the default `undo_mode=True` as in
the original.  The early `return` paths (selection, end of the outermost
chain, image nodes) leave the state exactly as received. -/
def key_delete : Nat → Bool → TM → Option TM
  | 0, _, _ => none
  | fuel+1, undo_mode, tm =>
    if hasSelection tm then deleteSelection tm fuel
    else if cursor_inside tm.doc tm.cursor then do
      let node := tm.cursor.node
      let (d, ch) ← node_backspace tm.doc node tm.cursor.pos
      let tm := { tm with doc := d, last_delchar := ch }
      let tm ← relex tm node
      key_deleteTail tm fuel undo_mode node
    else do
      let n1 ← find_next_visible tm.doc fuel tm.cursor.node
      let step1 : Option (Option Nat) :=
        if (getN tm.doc n1).cls = NodeCls.eosC then
          match get_languagebox tm n1 with
          | some lbox =>
            match (getN tm.doc lbox).nextT with
            | some j => some (some j)
            | none => none
          | none => some none
        else some (some n1)
      match step1 with
      | none => none
      | some none => pure tm
      | some (some n2) => do
        let n3 ← skipIndentNext tm.doc fuel n2
        if (getN tm.doc n3).symk = SymKind.magicT then do
          let tm ← leave_languagebox tm
          key_delete fuel true tm
        else if (getN tm.doc n3).image ∧ ¬(getN tm.doc n3).plainMode then pure tm
        else do
          let tm ←
            if (getN tm.doc n3).name = "\r" then do
              let (d, _) ← remove_indentation_nodes tm.doc fuel (getN tm.doc n3).nextT
              delete_linebreak { tm with doc := d } tm.cursor.line n3
            else pure tm
          let (d, ch) ← node_backspace tm.doc n3 0
          let tm := { tm with doc := d, last_delchar := ch }
          let (tm, repairnode) ←
            if (getN tm.doc n3).name = "" ∧ ¬((getN tm.doc n3).cls = NodeCls.bosC) then do
              let rp ← find_previous_visible tm.doc fuel n3
              let root := get_root tm.doc n3
              match get_magicterminal tm.doc root,
                    (getN tm.doc n3).nextT, (getN tm.doc n3).prevT with
              | some magic, some nxt, some prv =>
                if (getN tm.doc nxt).cls = NodeCls.eosC ∧
                   (getN tm.doc prv).cls = NodeCls.bosC then do
                  let cnode ← find_previous_visible tm.doc fuel prv
                  let cpos : Int := (getN tm.doc cnode).name.length
                  let c := { tm.cursor with node := cnode, pos := cpos }
                  let d := remove_child tm.doc magic
                  let tm := deleteParser { tm with doc := d, cursor := c } root
                  pure (tm, cnode)
                else pure ({ tm with doc := remove_child tm.doc n3 }, rp)
              | _, _, _ => pure ({ tm with doc := remove_child tm.doc n3 }, rp)
            else pure (tm, n3)
          let tm ←
            if ¬((getN tm.doc repairnode).cls = NodeCls.bosC) then relex tm repairnode
            else pure tm
          key_deleteTail tm fuel undo_mode repairnode

/-- `TreeManager.key_backspace`: a no-op at the very start of the document,
otherwise step left and forward-delete. -/
def key_backspace (fuel : Nat) (undo_mode : Bool) (tm : TM) : Option TM := do
  let node := tm.cursor.node
  let rr ← tm.doc.roots.get? tm.mainroot
  if node = rr.bos then pure tm
  else if (getN tm.doc node).image ∧ ¬(getN tm.doc node).plainMode then pure tm
  else do
    let tm ←
      if (getN tm.doc tm.cursor.node).name = "\r" then do
        let p ← find_previous_visible tm.doc fuel tm.cursor.node
        let c : Cursor := ⟨p, ((getN tm.doc p).name.length : Int), tm.cursor.line - 1⟩
        pure { tm with cursor := c }
      else do
        let c ← cursor_left tm.doc fuel tm.cursor
        pure { tm with cursor := c }
    key_delete fuel undo_mode tm

/-! ## Undo and redo -/

/-- `UndoManager.undo_insert`: backspace once per inserted character. -/
def undo_insert (fuel : Nat) (tm : TM) (text : String) : Option TM :=
  text.toList.foldlM (fun tm _ => key_backspace fuel false tm) tm

/-- `UndoManager.undo_delete`: retype the deleted text backwards. -/
def undo_delete (fuel : Nat) (tm : TM) (text : String) : Option TM :=
  text.toList.reverse.foldlM
    (fun tm c => do
      let r ← key_normal fuel false (String.mk [c]) tm
      pure r.1) tm

/-- `UndoManager.undo`. -/
def um_undo (fuel : Nat) (tm : TM) : Option TM := do
  let um := tm.um
  if um.stack.length > 0 ∧ um.pos > -1 then do
    let uo ← pyGet um.stack um.pos
    let c := { tm.cursor with line := uo.line2 }
    let c ← move_to_x tm.doc fuel uo.x2 tm.lines c
    let tm := { tm with cursor := c }
    let tm ←
      if uo.cmd = "insert" then undo_insert fuel tm uo.text
      else if uo.cmd = "delete" then undo_delete fuel tm uo.text
      else none
    pure { tm with um := { tm.um with pos := tm.um.pos - 1, mode := "new" } }
  else pure { tm with um := { tm.um with mode := "new" } }

/-- `UndoManager.redo_insert`. -/
def redo_insert (fuel : Nat) (tm : TM) (uo : UndoObject) : Option TM := do
  let c := { tm.cursor with line := uo.line1 }
  let c ← move_to_x tm.doc fuel uo.x1 tm.lines c
  let tm := { tm with cursor := c }
  uo.text.toList.foldlM
    (fun tm ch => do
      let r ← key_normal fuel false (String.mk [ch]) tm
      pure r.1) tm

/-- `UndoManager.redo_delete`. -/
def redo_delete (fuel : Nat) (tm : TM) (uo : UndoObject) : Option TM := do
  let c := { tm.cursor with line := uo.line1 }
  let c ← move_to_x tm.doc fuel uo.x1 tm.lines c
  let tm := { tm with cursor := c }
  undo_insert fuel tm uo.text

/-- `UndoManager.redo`. -/
def um_redo (fuel : Nat) (tm : TM) : Option TM := do
  let um := tm.um
  if um.stack.length > 0 ∧ um.pos + 1 < (um.stack.length : Int) then do
    let tm := { tm with um := { um with pos := um.pos + 1 } }
    let uo ← pyGet tm.um.stack tm.um.pos
    if uo.cmd = "insert" then redo_insert fuel tm uo
    else if uo.cmd = "delete" then redo_delete fuel tm uo
    else none
  else pure tm

/-- `TreeManager.key_ctrl_z`. -/
def key_ctrl_z (fuel : Nat) (tm : TM) : Option TM := do
  let tm ← um_undo fuel tm
  pure { tm with changed := true }

/-- `TreeManager.key_shift_ctrl_z`. -/
def key_shift_ctrl_z (fuel : Nat) (tm : TM) : Option TM := do
  let tm ← um_redo fuel tm
  pure { tm with changed := true }

/-! ## Document construction and observation -/

/-- The state of a freshly loaded empty document with one grammar: node 0
is the main `BOS`, node 1 the main `EOS`; as in `add_parser`, the line
index starts with `Line(bos)` and the cursor sits on the `BOS`. -/
def emptyTM (indentBased : Bool) : TM :=
  let nodes : Nat → Node := fun i =>
    if i = 0 then { cls := NodeCls.bosC, nextT := some 1, root := 0 }
    else if i = 1 then { cls := NodeCls.eosC, prevT := some 0, root := 0 }
    else {}
  let d : Doc := ⟨nodes, 2, [⟨0, 1, none⟩]⟩
  { doc := d, lines := [{ node := 0 }], cursor := ⟨0, 0, 0⟩,
    selection_start := ⟨0, 0, 0⟩, selection_end := ⟨0, 0, 0⟩,
    parsers := [⟨0, "main", indentBased⟩], mainroot := 0, um := {} }

/-- Modelled from the spec: the flattened visible text of the document --
traverse forward from a node, collecting the text of visible nodes,
entering each language box at its boundary and leaving it at its `EOS`;
stop at the outermost `EOS`. -/
def visTextLoop (d : Doc) : Nat → Nat → Option (List String)
  | 0, _ => none
  | steps+1, i =>
    let n := getN d i
    if n.cls = NodeCls.eosC then
      match get_magicterminal d n.root with
      | some lbox =>
        match (getN d lbox).nextT with
        | some j => visTextLoop d steps j
        | none => none
      | none => some []
    else if n.symk = SymKind.magicT then
      match n.ast with
      | some r =>
        match d.roots.get? r with
        | some rr => visTextLoop d steps rr.bos
        | none => none
      | none => none
    else
      match n.nextT with
      | some j => do
        let rest ← visTextLoop d steps j
        pure (if is_visible d i then n.name :: rest else rest)
      | none => none

/-- Modelled from the spec: the document's visible text, from the main
`BOS`. -/
def visibleText (tm : TM) (fuel : Nat) : Option String := do
  let b ← get_bos tm
  let l ← visTextLoop tm.doc fuel b
  pure (String.join l)

/-- A three-node document `BOS, "" , EOS` whose middle node is an ordinary
`Terminal` with zero-length text. -/
def c8Doc : Doc :=
  let nodes : Nat → Node := fun i =>
    if i = 0 then { cls := NodeCls.bosC, nextT := some 2, root := 0 }
    else if i = 1 then { cls := NodeCls.eosC, prevT := some 2, root := 0 }
    else if i = 2 then { nextT := some 1, prevT := some 0, root := 0 }
    else {}
  ⟨nodes, 3, [⟨0, 1, none⟩]⟩

/-- Scenario: starting from the empty document, type `a`, then a line
break, producing two coalesced undo entries. -/
def c1AfterEdits : Option TM := do
  let r ← key_normal 60 true "a" (emptyTM false)
  let r ← key_normal 60 true "\r" r.1
  pure r.1

/-- Scenario continued: undo both entries. -/
def c1AfterUndo : Option TM := do
  let tm ← c1AfterEdits
  let tm ← key_ctrl_z 60 tm
  key_ctrl_z 60 tm

/-- Scenario continued: redo both entries. -/
def c1AfterRedo : Option TM := do
  let tm ← c1AfterUndo
  let tm ← key_shift_ctrl_z 60 tm
  key_shift_ctrl_z 60 tm

/-- A six-node document: outer chain `BOS(0), MAGIC(2), EOS(1)` with the
language box rooted at `1` holding `BOS(3), "x"(4), EOS(5)`. -/
def c2Doc : Doc :=
  let nodes : Nat → Node := fun i =>
    if i = 0 then { cls := NodeCls.bosC, nextT := some 2, root := 0 }
    else if i = 1 then { cls := NodeCls.eosC, prevT := some 2, root := 0 }
    else if i = 2 then
      { symk := SymKind.magicT, name := "<calc>", nextT := some 1,
        prevT := some 0, root := 0, ast := some 1 }
    else if i = 3 then { cls := NodeCls.bosC, nextT := some 4, root := 1 }
    else if i = 4 then { name := "x", nextT := some 5, prevT := some 3, root := 1 }
    else if i = 5 then { cls := NodeCls.eosC, prevT := some 4, root := 1 }
    else {}
  ⟨nodes, 6, [⟨0, 1, none⟩, ⟨3, 5, some 2⟩]⟩

/-- The tree-manager state over `c2Doc`: cursor on the box's `BOS`, no
selection, two parser bindings. -/
def c2TM : TM :=
  { doc := c2Doc, lines := [{ node := 0 }], cursor := ⟨3, 0, 0⟩,
    selection_start := ⟨3, 0, 0⟩, selection_end := ⟨3, 0, 0⟩,
    parsers := [⟨0, "main", false⟩, ⟨1, "calc", false⟩],
    mainroot := 0, um := {} }

/-- A six-line indentation-based document: line `i` (1..5) is a line break
node (`3*i-1`), a whitespace token (`3*i`) and a text token (`3*i+1`); the
leading whitespace widths of lines 1..5 are `2, 4, 2, 8, 4`. -/
def c3Doc : Doc :=
  let ws : Nat → Nat := fun i =>
    if i = 1 then 2 else if i = 2 then 4 else if i = 3 then 2
    else if i = 4 then 8 else 4
  let nodes : Nat → Node := fun k =>
    if k = 0 then { cls := NodeCls.bosC, nextT := some 2, root := 0 }
    else if k = 1 then { cls := NodeCls.eosC, prevT := some 16, root := 0 }
    else if k ≥ 17 then {}
    else
      let i := (k + 1) / 3
      let r := (k + 1) % 3
      if r = 0 then
        { name := "\r", lookup := "<return>", nextT := some (3 * i),
          prevT := some (if i = 1 then 0 else 3 * i - 2), root := 0 }
      else if r = 1 then
        { name := strRepeat ' ' (ws i), lookup := "<ws>",
          nextT := some (3 * i + 1), prevT := some (3 * i - 1), root := 0 }
      else
        { name := "x", lookup := "x",
          nextT := some (if i = 5 then 1 else 3 * i + 2),
          prevT := some (3 * i), root := 0 }
  ⟨nodes, 17, [⟨0, 1, none⟩]⟩

/-- The line records of `c3Doc` after the whitespace write of
`repair_indentation` at line 5. -/
def c3Lines2 : List Line :=
  [⟨0, 1, 0, 0, 0⟩, ⟨2, 1, 0, 1, 2⟩, ⟨5, 1, 0, 2, 4⟩, ⟨8, 1, 0, 1, 2⟩,
   ⟨11, 1, 0, 2, 8⟩, ⟨14, 1, 0, 2, 4⟩]

/-- The tree-manager state over `c3Doc` (line 5's cached `ws` still
stale). -/
def c3TM : TM :=
  { doc := c3Doc,
    lines := [⟨0, 1, 0, 0, 0⟩, ⟨2, 1, 0, 1, 2⟩, ⟨5, 1, 0, 2, 4⟩,
              ⟨8, 1, 0, 1, 2⟩, ⟨11, 1, 0, 2, 8⟩, ⟨14, 1, 0, 2, 0⟩],
    cursor := ⟨0, 0, 0⟩, selection_start := ⟨0, 0, 0⟩,
    selection_end := ⟨0, 0, 0⟩, parsers := [⟨0, "main", true⟩],
    mainroot := 0, um := {} }

/-- Modelled from the claim's words: the number of line-break tokens
reachable by a view-level traversal that excludes language-box content
from the main view's count (boxes are skipped over at their boundary
node, not entered). -/
def vbcLoop (d : Doc) : Nat → Nat → Option Nat
  | 0, _ => none
  | steps+1, i =>
    if (getN d i).cls = NodeCls.eosC then some 0
    else
      match (getN d i).nextT with
      | some j => do
        let rest ← vbcLoop d steps j
        pure (if (getN d i).name = "\r" then rest + 1 else rest)
      | none => none

/-- Modelled from the claim's words: the main view's line-break count,
from the main `BOS`. -/
def viewBreakCount (tm : TM) (fuel : Nat) : Option Nat := do
  let b ← get_bos tm
  vbcLoop tm.doc fuel b

/-- The node sequence visited by the line-break rescan between a start
node and the stop node `target`: the box-entering traversal of
`rescan_linebreaks` (dive into a box at its boundary node, leave a nested
`EOS` through the boundary's successor, otherwise follow `nextT`). -/
def rlbWalk (d : Doc) (target : Nat) : List Nat → Nat → Prop
  | [], c => c = target
  | x :: xs, c =>
    c = x ∧ x ≠ target ∧
    (if (getN d x).symk = SymKind.magicT then
      ∃ r rr, (getN d x).ast = some r ∧ d.roots.get? r = some rr ∧
        rlbWalk d target xs rr.bos
    else if (getN d x).cls = NodeCls.eosC then
      ∃ lbox j, get_magicterminal d (getN d x).root = some lbox ∧
        (getN d lbox).nextT = some j ∧ rlbWalk d target xs j
    else ∃ j, (getN d x).nextT = some j ∧ rlbWalk d target xs j)

/-- A document whose language box holds a line break: outer chain
`BOS(0), MAGIC(2), EOS(1)`, nested chain `BOS(3), "\r"(4), EOS(5)`. -/
def c4Doc : Doc :=
  let nodes : Nat → Node := fun i =>
    if i = 0 then { cls := NodeCls.bosC, nextT := some 2, root := 0 }
    else if i = 1 then { cls := NodeCls.eosC, prevT := some 2, root := 0 }
    else if i = 2 then
      { symk := SymKind.magicT, name := "<box>", nextT := some 1,
        prevT := some 0, root := 0, ast := some 1 }
    else if i = 3 then { cls := NodeCls.bosC, nextT := some 4, root := 1 }
    else if i = 4 then
      { name := "\r", lookup := "<return>", nextT := some 5, prevT := some 3,
        root := 1 }
    else if i = 5 then { cls := NodeCls.eosC, prevT := some 4, root := 1 }
    else {}
  ⟨nodes, 6, [⟨0, 1, none⟩, ⟨3, 5, some 2⟩]⟩

/-- The tree-manager state over `c4Doc`: the line index carries the
sentinel line and the box-internal break, as `add_parser` plus the rescan
build it. -/
def c4TM : TM :=
  { doc := c4Doc, lines := [{ node := 0 }, { node := 4 }], cursor := ⟨0, 0, 0⟩,
    selection_start := ⟨0, 0, 0⟩, selection_end := ⟨0, 0, 0⟩,
    parsers := [⟨0, "main", false⟩, ⟨1, "inner", false⟩],
    mainroot := 0, um := {} }

/-- A copy of `c4TM` whose line index holds only the sentinel line (the
state the rescan rebuilds from). -/
def c4TM0 : TM := { c4TM with lines := [{ node := 0 }] }

/-- An ordinary outer-chain token of root `r0`: an ordinary terminal whose
text is not a bare line break and whose lookup is neither a line break nor
whitespace (so lines stay intact and logical-line scans stop at it). -/
def isOuterTok (d : Doc) (r0 x : Nat) : Prop :=
  (getN d x).cls = NodeCls.textC ∧ (getN d x).symk = SymKind.terminal ∧
  (getN d x).name ≠ "\r" ∧ (getN d x).root = r0 ∧
  (getN d x).lookup ≠ "<return>" ∧ (getN d x).lookup ≠ "<ws>"

/-- A doubly linked run `a → l₀ → ... → b` of outer tokens: consecutive
`nextT`/`prevT` links with every listed node an outer token. -/
def outerRun (d : Doc) (r0 : Nat) : Nat → List Nat → Nat → Prop
  | a, [], b => (getN d a).nextT = some b ∧ (getN d b).prevT = some a
  | a, x :: xs, b =>
      (getN d a).nextT = some x ∧ (getN d x).prevT = some a ∧
      isOuterTok d r0 x ∧ outerRun d r0 x xs b

/-- A forward chain from node `c` through the listed outer tokens to the
terminal node `b`, following `nextT`. -/
def fwdChain (d : Doc) (r0 b : Nat) : List Nat → Nat → Prop
  | [], c => c = b
  | x :: xs, c =>
      c = x ∧ isOuterTok d r0 x ∧
      match (getN d x).nextT with
      | some j => fwdChain d r0 b xs j
      | none => False

/-- A backward chain from node `c` through the listed outer tokens to the
terminal node `a`, following `prevT`. -/
def bwdChain (d : Doc) (r0 a : Nat) : List Nat → Nat → Prop
  | [], c => c = a
  | x :: xs, c =>
      c = x ∧ isOuterTok d r0 x ∧
      match (getN d x).prevT with
      | some j => bwdChain d r0 a xs j
      | none => False

/-! ## Helper lemmas -/

theorem setN_getN (d : Doc) (i : Nat) (n : Node) (j : Nat) :
    getN (setN d i n) j = if j = i then n else getN d j := by
  simp [getN, setN, Function.update_apply]

theorem setN_roots (d : Doc) (i : Nat) (n : Node) :
    (setN d i n).roots = d.roots := rfl

theorem remove_child_roots (d : Doc) (m : Nat) :
    (remove_child d m).roots = d.roots := by
  cases hp : (getN d m).prevT <;> cases hq : (getN d m).nextT <;>
    simp only [remove_child, hp, hq, setN_roots]

/-- `remove_child` never changes the `cls`, `symk`, `name`, `root` or
`lookup` of any node: it only rewires `nextT`/`prevT` of the neighbours and
sets the `deleted` flag of the removed node. -/
theorem rc_fields (d : Doc) (m i : Nat) :
    (getN (remove_child d m) i).cls = (getN d i).cls ∧
    (getN (remove_child d m) i).symk = (getN d i).symk ∧
    (getN (remove_child d m) i).name = (getN d i).name ∧
    (getN (remove_child d m) i).root = (getN d i).root ∧
    (getN (remove_child d m) i).lookup = (getN d i).lookup := by
  cases hp : (getN d m).prevT <;> cases hq : (getN d m).nextT <;>
    simp only [remove_child, hp, hq, setN_getN] <;> split_ifs <;> simp_all

/-- `remove_child d m` preserves the `nextT` of every node other than the
one `m`'s `prevT` points at. -/
theorem rc_nextT_other (d : Doc) (m i : Nat)
    (h : (getN d m).prevT ≠ some i) :
    (getN (remove_child d m) i).nextT = (getN d i).nextT := by
  cases hp : (getN d m).prevT <;> cases hq : (getN d m).nextT <;>
    simp only [remove_child, hp, hq, setN_getN] <;> split_ifs <;> simp_all

/-- `remove_child d m` rewires the `nextT` of the node `m.prevT` points at
to `m.nextT`. -/
theorem rc_nextT_prev (d : Doc) (m i : Nat)
    (h : (getN d m).prevT = some i) (hmi : i ≠ m) :
    (getN (remove_child d m) i).nextT = (getN d m).nextT := by
  cases hp : (getN d m).prevT <;> cases hq : (getN d m).nextT <;>
    simp only [remove_child, hp, hq, setN_getN] <;> split_ifs <;> simp_all

/-- `remove_child d m` preserves the `prevT` of every node other than the
one `m`'s `nextT` points at. -/
theorem rc_prevT_other (d : Doc) (m i : Nat)
    (h : (getN d m).nextT ≠ some i) :
    (getN (remove_child d m) i).prevT = (getN d i).prevT := by
  cases hp : (getN d m).prevT <;> cases hq : (getN d m).nextT <;>
    simp only [remove_child, hp, hq, setN_getN] <;> split_ifs <;> simp_all

/-- `remove_child d m` rewires the `prevT` of the node `m.nextT` points at
to `m.prevT`. -/
theorem rc_prevT_next (d : Doc) (m i : Nat)
    (h : (getN d m).nextT = some i) (hmi : i ≠ m) :
    (getN (remove_child d m) i).prevT = (getN d m).prevT := by
  cases hp : (getN d m).prevT <;> cases hq : (getN d m).nextT <;>
    simp only [remove_child, hp, hq, setN_getN] <;> split_ifs <;> simp_all

/-- The removed node is marked deleted. -/
theorem rc_deleted_self (d : Doc) (m : Nat) :
    (getN (remove_child d m) m).deleted = true := by
  cases hp : (getN d m).prevT <;> cases hq : (getN d m).nextT <;>
    simp only [remove_child, hp, hq, setN_getN] <;> split_ifs <;> simp_all

/-- An outer token is visible. -/
theorem isOuterTok_visible {d : Doc} {r0 x : Nat} (h : isOuterTok d r0 x) :
    is_visible d x = true := by
  obtain ⟨h1, h2, -, -, -, -⟩ := h
  simp [is_visible, h1, h2]

/-- Outer-token facts survive `remove_child` (which never edits those
fields). -/
theorem isOuterTok_rc {d : Doc} {r0 x : Nat} (m : Nat) (h : isOuterTok d r0 x) :
    isOuterTok (remove_child d m) r0 x := by
  obtain ⟨h1, h2, h3, h4, h5, h6⟩ := h
  obtain ⟨f1, f2, f3, f4, f5⟩ := rc_fields d m x
  exact ⟨f1.trans h1, f2.trans h2, f3 ▸ h3, f4.trans h4, f5 ▸ h5, f5 ▸ h6⟩

/-- Outer-token facts survive an unrelated node write. -/
theorem isOuterTok_setN {d : Doc} {r0 x : Nat} {i : Nat} {n : Node}
    (h : isOuterTok d r0 x) (hne : x ≠ i) :
    isOuterTok (setN d i n) r0 x := by
  unfold isOuterTok at h ⊢
  rw [setN_getN, if_neg hne]
  exact h

/-- A doubly linked run survives a node write outside of it. -/
theorem outerRun_setN {d : Doc} {r0 : Nat} {i : Nat} {n : Node} :
    ∀ {a : Nat} {l : List Nat} {b : Nat}, outerRun d r0 a l b →
      i ∉ a :: l ++ [b] → outerRun (setN d i n) r0 a l b := by
  intro a l b
  induction l generalizing a with
  | nil =>
    intro h hm
    have hia : a ≠ i := fun hh => hm (by simp [hh])
    have hib : b ≠ i := fun hh => hm (by simp [hh])
    exact ⟨by rw [setN_getN, if_neg hia]; exact h.1,
           by rw [setN_getN, if_neg hib]; exact h.2⟩
  | cons x xs ih =>
    intro h hm
    obtain ⟨hr1, hr2, htok, hrest⟩ := h
    have hia : a ≠ i := fun hh => hm (by simp [hh])
    have hix : x ≠ i := fun hh => hm (by simp [hh])
    refine ⟨by rw [setN_getN, if_neg hia]; exact hr1,
            by rw [setN_getN, if_neg hix]; exact hr2,
            isOuterTok_setN htok hix, ih hrest ?_⟩
    intro hc
    apply hm
    simp only [List.mem_cons, List.cons_append, List.mem_append,
      List.mem_singleton] at hc ⊢
    tauto

/-- A doubly linked run survives `remove_child d m` when the node `m`'s
neighbours lie outside the run's read set. -/
theorem outerRun_rc {d : Doc} {r0 m : Nat} :
    ∀ {a : Nat} {l : List Nat} {b : Nat}, outerRun d r0 a l b →
      (∀ p, (getN d m).prevT = some p → p ∉ a :: l) →
      (∀ q, (getN d m).nextT = some q → q ∉ l ++ [b]) →
      outerRun (remove_child d m) r0 a l b := by
  intro a l b
  induction l generalizing a with
  | nil =>
    intro h hp hq
    obtain ⟨hr1, hr2⟩ := h
    constructor
    · rw [rc_nextT_other]
      · exact hr1
      · intro hc
        exact hp a hc (by simp)
    · rw [rc_prevT_other]
      · exact hr2
      · intro hc
        exact hq b hc (by simp)
  | cons x xs ih =>
    intro h hp hq
    obtain ⟨hr1, hr2, htok, hrest⟩ := h
    refine ⟨?_, ?_, isOuterTok_rc m htok, ?_⟩
    · rw [rc_nextT_other]
      · exact hr1
      · intro hc
        exact hp a hc (by simp)
    · rw [rc_prevT_other]
      · exact hr2
      · intro hc
        exact hq x hc (by simp)
    · refine ih hrest ?_ ?_
      · intro p hpp hin
        exact hp p hpp (by simp [List.mem_cons] at hin ⊢; tauto)
      · intro q hqq hin
        exact hq q hqq (by simp [List.mem_append, List.mem_cons] at hin ⊢; tauto)

/-- The last node of a run is what the terminal's `prevT` points at. -/
theorem outerRun_last_prev {d : Doc} {r0 : Nat} :
    ∀ {a : Nat} {l : List Nat} {b : Nat}, outerRun d r0 a l b →
      (getN d b).prevT = some ((a :: l).getLast (by simp)) := by
  intro a l b
  induction l generalizing a with
  | nil =>
    intro h
    exact h.2
  | cons x xs ih =>
    intro h
    obtain ⟨-, -, -, hrest⟩ := h
    simpa [List.getLast_cons] using ih hrest

/-- The first node after the anchor of a run is the head of `l ++ [b]`. -/
theorem outerRun_head_next {d : Doc} {r0 : Nat} :
    ∀ {a : Nat} {l : List Nat} {b : Nat}, outerRun d r0 a l b →
      (getN d a).nextT = some ((l ++ [b]).head (by simp)) := by
  intro a l b
  induction l generalizing a with
  | nil => intro h; exact h.1
  | cons x xs ih => intro h; exact h.1

/-- Base case of chain splicing: removing the boundary right after the
anchor joins the anchor to the following run. -/
theorem spliced_run_base {d : Doc} {r0 mg oe : Nat} :
    ∀ {a : Nat} {post : List Nat},
      outerRun d r0 a [] mg → outerRun d r0 mg post oe →
      a ∉ post → a ≠ oe → a ≠ mg → mg ∉ post → mg ≠ oe → oe ∉ post →
      post.Nodup →
      outerRun (remove_child d mg) r0 a post oe := by
  intro a post h1 h2 hap haoe hamg hmp hmoe hoep hnd
  obtain ⟨hn1, hp1⟩ := h1
  cases post with
  | nil =>
    obtain ⟨hn2, hp2⟩ := h2
    constructor
    · rw [rc_nextT_prev d mg a hp1 hamg, hn2]
    · rw [rc_prevT_next d mg oe hn2 (Ne.symm hmoe), hp1]
  | cons x xs =>
    obtain ⟨hn2, hp2, htok, hrest⟩ := h2
    have hxmg : x ≠ mg := by
      intro hh
      exact hmp (by simp [hh])
    refine ⟨?_, ?_, isOuterTok_rc mg htok, ?_⟩
    · rw [rc_nextT_prev d mg a hp1 hamg, hn2]
    · rw [rc_prevT_next d mg x hn2 hxmg, hp1]
    · apply outerRun_rc hrest
      · intro p hpp hin
        rw [hp1] at hpp
        cases hpp
        exact hap hin
      · intro q hqq hin
        rw [hn2] at hqq
        cases hqq
        rcases List.mem_append.mp hin with h | h
        · exact (List.nodup_cons.mp hnd).1 h
        · simp only [List.mem_singleton] at h
          exact hoep (by simp [← h])


theorem modifyLast_length {α : Type} (l : List α) (f : α → α) :
    (modifyLast l f).length = l.length := by
  unfold modifyLast
  match hl : l.getLast? with
  | none => rfl
  | some x =>
    have hne : l ≠ [] := by
      intro h
      subst h
      simp [List.getLast?] at hl
    simp [List.length_dropLast]
    have : 1 ≤ l.length := List.length_pos.mpr hne
    omega

theorem getLast?_of_ne_nil {α : Type} (l : List α) (h : l ≠ []) :
    ∃ x, l.getLast? = some x := by
  match l with
  | [] => exact absurd rfl h
  | a :: as => exact ⟨(a :: as).getLast (by simp), List.getLast?_eq_getLast _ _⟩

theorem um_addCore_length_le (gx line : Int) (um um1 : UndoManager)
    (cmd text : String) (h : um_addCore gx line um cmd text = some um1) :
    um1.stack.length ≤ um.stack.length + 1 := by
  have htake : (pyDelFrom um.stack (um.pos + 1)).length ≤ um.stack.length := by
    simp only [pyDelFrom, List.length_take]
    omega
  unfold um_addCore at h
  repeat' split at h
  all_goals first
  | exact Option.noConfusion h
  | (injection h with h2
     subst h2
     simp only [List.length_append, List.length_singleton, modifyLast_length]
     omega)

/-- Loop invariant of `find_next_visible`: the returned node is visible, or
it is an `EOS` with no enclosing language box (the traversal terminal). -/
theorem fnvLoop_result (d : Doc) :
    ∀ fuel i m, fnvLoop d fuel i = some m →
      is_visible d m = true ∨
      ((getN d m).cls = NodeCls.eosC ∧ get_magicterminal d (getN d m).root = none) := by
  intro fuel
  induction fuel with
  | zero => intro i m h; exact absurd h (by simp [fnvLoop])
  | succ n ih =>
    intro i m h
    simp only [fnvLoop] at h
    split at h
    · next hv => cases h; exact Or.inl hv
    · next hv =>
      split at h
      · next heos =>
        split at h
        · next lbox hl =>
          split at h
          · next j hj => exact ih j m h
          · exact absurd h (by simp)
        · next hl => cases h; exact Or.inr ⟨heos, hl⟩
      · next heos =>
        split at h
        · next hm =>
          split at h
          · next r hr =>
            split at h
            · next rr hrr => exact ih rr.bos m h
            · exact absurd h (by simp)
          · exact absurd h (by simp)
        · next hm =>
          split at h
          · next j hj => exact ih j m h
          · exact absurd h (by simp)

/-- Loop invariant of `find_previous_visible`: the returned node is
visible, or it is a `BOS` with no enclosing language box. -/
theorem fpvLoop_result (d : Doc) :
    ∀ fuel i m, fpvLoop d fuel i = some m →
      is_visible d m = true ∨
      ((getN d m).cls = NodeCls.bosC ∧ get_magicterminal d (getN d m).root = none) := by
  intro fuel
  induction fuel with
  | zero => intro i m h; exact absurd h (by simp [fpvLoop])
  | succ n ih =>
    intro i m h
    simp only [fpvLoop] at h
    split at h
    · next hv => cases h; exact Or.inl hv
    · next hv =>
      split at h
      · next hbos =>
        split at h
        · next lbox hl =>
          split at h
          · next j hj => exact ih j m h
          · exact absurd h (by simp)
        · next hl => cases h; exact Or.inr ⟨hbos, hl⟩
      · next hbos =>
        split at h
        · next hm =>
          split at h
          · next r hr =>
            split at h
            · next rr hrr => exact ih rr.eos m h
            · exact absurd h (by simp)
          · exact absurd h (by simp)
        · next hm =>
          split at h
          · next j hj => exact ih j m h
          · exact absurd h (by simp)

/-- Chain splicing: removing the boundary node `mg` that separates the two
runs joins them into one. -/
theorem spliced_run {d : Doc} {r0 mg oe : Nat} :
    ∀ {a : Nat} {pre post : List Nat},
      outerRun d r0 a pre mg → outerRun d r0 mg post oe →
      a ∉ pre → a ∉ post → a ≠ oe → a ≠ mg →
      mg ∉ pre → mg ∉ post → mg ≠ oe →
      oe ∉ pre → oe ∉ post →
      (∀ x ∈ pre, x ∉ post) → pre.Nodup → post.Nodup →
      outerRun (remove_child d mg) r0 a (pre ++ post) oe := by
  intro a pre
  induction pre generalizing a with
  | nil =>
    intro post h1 h2 _ hapost haoe hamg _ hmgpost hmgoe _ hoepost _ _ hndpost
    simpa using spliced_run_base h1 h2 hapost haoe hamg hmgpost hmgoe hoepost hndpost
  | cons x xs ih =>
    intro post h1 h2 hapre hapost haoe hamg hmgpre hmgpost hmgoe hoepre hoepost
      hdisj hndpre hndpost
    obtain ⟨hn1, hp1, htok, hrest⟩ := h1
    have hxpre : x ∈ x :: xs := by simp
    have hlast : (getN d mg).prevT = some ((x :: xs).getLast (by simp)) := by
      have hh := @outerRun_last_prev d r0 a (x :: xs) mg ⟨hn1, hp1, htok, hrest⟩
      rwa [List.getLast_cons (by simp)] at hh
    have hhead := outerRun_head_next h2
    refine ⟨?_, ?_, isOuterTok_rc mg htok, ?_⟩
    · rw [rc_nextT_other d mg a ?_]
      · exact hn1
      · intro hc
        rw [hlast] at hc
        injection hc with hc
        apply hapre
        rw [← hc]
        exact List.getLast_mem _
    · rw [rc_prevT_other d mg x ?_]
      · exact hp1
      · intro hc
        rw [hhead] at hc
        injection hc with hc
        have hmem := @List.head_mem _ (post ++ [oe]) (by simp)
        rw [hc] at hmem
        rcases List.mem_append.mp hmem with h | h
        · exact hdisj x hxpre h
        · simp only [List.mem_singleton] at h
          exact hoepre (by simp [← h])
    · have hx_oe : x ≠ oe := fun hh => hoepre (by simp [← hh])
      have hx_mg : x ≠ mg := fun hh => hmgpre (by simp [← hh])
      have hmg_xs : mg ∉ xs := fun hh => hmgpre (by simp [hh])
      have hoe_xs : oe ∉ xs := fun hh => hoepre (by simp [hh])
      exact ih hrest h2 (List.nodup_cons.mp hndpre).1
        (hdisj x hxpre) hx_oe hx_mg hmg_xs hmgpost hmgoe hoe_xs hoepost
        (fun z hz => hdisj z (by simp [hz])) (List.nodup_cons.mp hndpre).2 hndpost

/-- A doubly linked run induces a forward chain starting at the anchor's
successor. -/
theorem outerRun_to_fwd {d : Doc} {r0 : Nat} :
    ∀ {a : Nat} {l : List Nat} {b : Nat}, outerRun d r0 a l b →
      ∃ s, (getN d a).nextT = some s ∧ fwdChain d r0 b l s := by
  intro a l b
  induction l generalizing a with
  | nil =>
    intro h
    exact ⟨b, h.1, rfl⟩
  | cons x xs ih =>
    intro h
    obtain ⟨hn1, hp1, htok, hrest⟩ := h
    obtain ⟨s, hs, hc⟩ := ih hrest
    refine ⟨x, hn1, rfl, htok, ?_⟩
    simp only [hs]
    exact hc

/-- Extend a backward chain by one more token at the far end. -/
theorem bwdChain_append {d : Doc} {r0 x a : Nat}
    (htok : isOuterTok d r0 x) (hprev : (getN d x).prevT = some a) :
    ∀ {L : List Nat} {c : Nat}, bwdChain d r0 x L c →
      bwdChain d r0 a (L ++ [x]) c := by
  intro L
  induction L with
  | nil =>
    intro c h
    cases h
    refine ⟨rfl, htok, ?_⟩
    simp only [hprev]
    rfl
  | cons y ys ih =>
    intro c h
    obtain ⟨hc, htoky, hm⟩ := h
    cases hpy : (getN d y).prevT with
    | none =>
      rw [hpy] at hm
      exact absurd hm (by simp)
    | some j =>
      rw [hpy] at hm
      refine ⟨hc, htoky, ?_⟩
      simp only [hpy]
      exact ih hm

/-- A doubly linked run induces a backward chain from its last node. -/
theorem outerRun_to_bwd {d : Doc} {r0 : Nat} :
    ∀ {a : Nat} {l : List Nat} {b : Nat}, outerRun d r0 a l b →
      (hne : l ≠ []) → bwdChain d r0 a l.reverse (l.getLast hne) := by
  intro a l b
  induction l generalizing a with
  | nil =>
    intro h hne
    exact absurd rfl hne
  | cons x xs ih =>
    intro h hne
    obtain ⟨hn1, hp1, htok, hrest⟩ := h
    by_cases hxe : xs = []
    · subst hxe
      simp only [List.reverse_cons, List.reverse_nil, List.nil_append,
        List.getLast_singleton]
      refine ⟨rfl, htok, ?_⟩
      simp only [hp1]
      rfl
    · have hbw := bwdChain_append htok hp1 (ih hrest hxe)
      rw [List.getLast_cons hxe]
      simpa [List.reverse_cons] using hbw

/-- `rescan_linebreaks`' loop walks a forward chain of outer tokens to the
target without registering any line. -/
theorem rlbLoop_fwdChain {d : Doc} {r0 b : Nat} :
    ∀ (l : List Nat) (c : Nat) (fuel : Nat) (lines : List Line) (y : Int),
      fwdChain d r0 b l c → l.length < fuel →
      rlbLoop d fuel lines y c b = some lines := by
  intro l
  induction l with
  | nil =>
    intro c fuel lines y hch hf
    obtain ⟨f, rfl⟩ : ∃ f, fuel = f + 1 := ⟨fuel - 1, by omega⟩
    cases hch
    simp [rlbLoop]
  | cons x xs ih =>
    intro c fuel lines y hch hf
    obtain ⟨f, rfl⟩ : ∃ f, fuel = f + 1 := ⟨fuel - 1, by omega⟩
    obtain ⟨hc, htok, hm⟩ := hch
    subst hc
    by_cases hxb : c = b
    · simp [rlbLoop, hxb]
    · cases hnx : (getN d c).nextT with
      | none =>
        rw [hnx] at hm
        exact absurd hm (by simp)
      | some j =>
        rw [hnx] at hm
        obtain ⟨t1, t2, t3, t4, t5, t6⟩ := htok
        simp only [rlbLoop, if_neg hxb, if_neg t3, t1, t2, hnx]
        simp only [reduceCtorEq, if_false]
        exact ih j f lines y hm (by simp only [List.length_cons] at hf; omega)

/-- The visible-text walk over a forward chain of outer tokens collects
their texts and stops at the boxless `EOS`. -/
theorem visTextLoop_fwdChain {d : Doc} {r0 b : Nat}
    (hb1 : (getN d b).cls = NodeCls.eosC)
    (hb2 : get_magicterminal d (getN d b).root = none) :
    ∀ (l : List Nat) (c : Nat) (fuel : Nat),
      fwdChain d r0 b l c → l.length < fuel →
      visTextLoop d fuel c = some (l.map (fun x => (getN d x).name)) := by
  intro l
  induction l with
  | nil =>
    intro c fuel hch hf
    obtain ⟨f, rfl⟩ : ∃ f, fuel = f + 1 := ⟨fuel - 1, by omega⟩
    cases hch
    simp [visTextLoop, hb1, hb2]
  | cons x xs ih =>
    intro c fuel hch hf
    obtain ⟨f, rfl⟩ : ∃ f, fuel = f + 1 := ⟨fuel - 1, by omega⟩
    obtain ⟨hc, htok, hm⟩ := hch
    subst hc
    cases hnx : (getN d c).nextT with
    | none =>
      rw [hnx] at hm
      exact absurd hm (by simp)
    | some j =>
      rw [hnx] at hm
      have hvis := isOuterTok_visible htok
      obtain ⟨t1, t2, t3, t4, t5, t6⟩ := htok
      simp only [visTextLoop, t1, t2, hnx]
      simp only [reduceCtorEq, if_false]
      rw [ih j f hm (by simp only [List.length_cons] at hf; omega)]
      simp [hvis]

/-- The logical-line test over a forward chain of outer tokens: `false` at
the bare `EOS`, `true` as soon as a token is there. -/
theorem illLoop_fwdChain {d : Doc} {r0 b : Nat}
    (hb1 : (getN d b).cls = NodeCls.eosC) :
    ∀ (l : List Nat) (c : Nat) (fuel : Nat),
      fwdChain d r0 b l c → 0 < fuel →
      illLoop d fuel c = some (decide (l ≠ [])) := by
  intro l c fuel hch hf
  obtain ⟨f, rfl⟩ : ∃ f, fuel = f + 1 := ⟨fuel - 1, by omega⟩
  cases l with
  | nil =>
    cases hch
    simp [illLoop, hb1]
  | cons x xs =>
    obtain ⟨hc, htok, hm⟩ := hch
    subst hc
    obtain ⟨t1, t2, t3, t4, t5, t6⟩ := htok
    simp only [illLoop, t1, t2, t5, t6]
    simp [reduceCtorEq]

/-- `fpvLoop` halts immediately on a visible node or on a boxless `BOS`. -/
theorem fpvLoop_stop {d : Doc} {j : Nat}
    (h : is_visible d j = true ∨
         ((getN d j).cls = NodeCls.bosC ∧
          get_magicterminal d (getN d j).root = none)) :
    ∀ fuel, 0 < fuel → fpvLoop d fuel j = some j := by
  intro fuel hf
  obtain ⟨f, rfl⟩ : ∃ f, fuel = f + 1 := ⟨fuel - 1, by omega⟩
  rcases h with h | ⟨h1, h2⟩
  · simp [fpvLoop, h]
  · have hv : is_visible d j = false := by
      simp only [is_visible]
      split_ifs <;> simp_all
    simp [fpvLoop, hv, h1, h2]

/-- The `get_x` summation loop succeeds along a backward chain of outer
tokens ending at a boxless `BOS`. -/
theorem getXLoop_bwdChain {d : Doc} {r0 a : Nat}
    (ha1 : (getN d a).cls = NodeCls.bosC)
    (ha2 : get_magicterminal d (getN d a).root = none) :
    ∀ (l : List Nat) (c : Nat) (x : Int) (steps fuel : Nat),
      bwdChain d r0 a l c → l.length < steps → 0 < fuel →
      ∃ v, getXLoop d fuel steps x c = some v := by
  intro l
  induction l with
  | nil =>
    intro c x steps fuel hch hs hf
    obtain ⟨s, rfl⟩ : ∃ s, steps = s + 1 := ⟨steps - 1, by omega⟩
    cases hch
    exact ⟨x, by simp [getXLoop, ha1]⟩
  | cons z zs ih =>
    intro c x steps fuel hch hs hf
    obtain ⟨s, rfl⟩ : ∃ s, steps = s + 1 := ⟨steps - 1, by omega⟩
    obtain ⟨hc, htok, hm⟩ := hch
    subst hc
    cases hpz : (getN d c).prevT with
    | none =>
      rw [hpz] at hm
      exact absurd hm (by simp)
    | some j =>
      rw [hpz] at hm
      have hvisz := isOuterTok_visible htok
      have hstop : fpvLoop d fuel j = some j := by
        apply fpvLoop_stop ?_ fuel hf
        cases zs with
        | nil =>
          cases hm
          exact Or.inr ⟨ha1, ha2⟩
        | cons w ws =>
          obtain ⟨hw, htokw, -⟩ := hm
          subst hw
          exact Or.inl (isOuterTok_visible htokw)
      obtain ⟨t1, t2, t3, t4, t5, t6⟩ := htok
      have hfpv : find_previous_visible d fuel c = some j := by
        simp only [find_previous_visible, hvisz, if_true, hpz]
        exact hstop
      simp only [getXLoop, t3, t1]
      simp only [reduceCtorEq, false_or, if_false]
      rw [hfpv]
      exact ih j (x + ((getN d c).name.length : Int)) s fuel hm
        (by simp only [List.length_cons] at hs; omega) hf

theorem cursorEqB_self (c : Cursor) : cursorEqB c c = true := by
  simp [cursorEqB]

theorem vis_of_tok {d : Doc} {i : Nat} (h1 : (getN d i).cls = NodeCls.textC)
    (h2 : (getN d i).symk = SymKind.terminal) : is_visible d i = true := by
  simp [is_visible, h1, h2]

theorem not_vis_of_bos {d : Doc} {i : Nat} (h1 : (getN d i).cls = NodeCls.bosC) :
    is_visible d i = false := by
  simp only [is_visible]
  split_ifs <;> simp_all

theorem not_vis_of_eos {d : Doc} {i : Nat} (h1 : (getN d i).cls = NodeCls.eosC) :
    is_visible d i = false := by
  simp only [is_visible]
  split_ifs <;> simp_all

theorem outerRun_mem_tok {d : Doc} {r0 : Nat} :
    ∀ {a : Nat} {l : List Nat} {b : Nat}, outerRun d r0 a l b →
      ∀ x ∈ l, isOuterTok d r0 x := by
  intro a l b
  induction l generalizing a with
  | nil => intro _ x hx; cases hx
  | cons y ys ih =>
    intro h x hx
    obtain ⟨-, -, htok, hrest⟩ := h
    rcases List.mem_cons.mp hx with h | h
    · exact h ▸ htok
    · exact ih hrest x h


theorem getLast_cons_cases {α : Type} (a : α) (l : List α) :
    ((a :: l).getLast (by simp) = a ∧ l = []) ∨ (a :: l).getLast (by simp) ∈ l := by
  induction l with
  | nil => exact Or.inl ⟨rfl, rfl⟩
  | cons x xs ih =>
    right
    show (x :: xs).getLast (by simp) ∈ x :: xs
    exact List.getLast_mem _

theorem um_add_total (gx line : Int) (um : UndoManager) (cmd text : String)
    (hum : um.stack = [] → um.mode = "new")
    (hcmd : cmd = "insert" ∨ cmd = "delete") :
    ∃ u, um_add gx line um cmd text = some u := by
  have hnew : cmd ≠ "new" := by rcases hcmd with h | h <;> simp [h]
  have hcore : ∃ u1, um_addCore gx line um cmd text = some u1 := by
    unfold um_addCore
    by_cases hi : (text = " " || pyStartsWith text "\r") = true
    · rw [if_pos hi, if_pos (Ne.symm hnew)]
      rcases hcmd with h | h <;> simp [h]
    · rw [if_neg hi]
      by_cases hm : um.mode ≠ cmd
      · rw [if_pos hm]
        rcases hcmd with h | h <;> simp [h]
      · rw [if_neg hm]
        push_neg at hm
        have hne : um.stack ≠ [] := fun h0 => hnew (by rw [← hm]; exact hum h0)
        obtain ⟨x, hx⟩ := getLast?_of_ne_nil um.stack hne
        rw [hx]
        exact ⟨_, rfl⟩
  obtain ⟨u1, hu1⟩ := hcore
  unfold um_add
  rw [hu1]
  by_cases hc : u1.stack.length > 100 <;> simp [hc]

theorem bwdChain_rc {d : Doc} {r0 m a : Nat} :
    ∀ {l : List Nat} {c : Nat}, bwdChain d r0 a l c →
      (∀ q, (getN d m).nextT = some q → q ∉ l) →
      bwdChain (remove_child d m) r0 a l c := by
  intro l
  induction l with
  | nil => intro c h _; exact h
  | cons x xs ih =>
    intro c h hq
    obtain ⟨hc, htok, hm⟩ := h
    cases hpx : (getN d x).prevT with
    | none => rw [hpx] at hm; exact absurd hm (by simp)
    | some j =>
      rw [hpx] at hm
      refine ⟨hc, isOuterTok_rc m htok, ?_⟩
      rw [rc_prevT_other d m x (fun hcc => hq x hcc (by simp [hc]))]
      rw [hpx]
      exact ih hm (fun q hqq hin => hq q hqq (by simp [hin]))


set_option maxHeartbeats 1600000 in
/-- After the empty-box deletion the state is a plain one-line outer chain:
`post_keypress` (rescan of line breaks and indentations), `reparse` and the
undo-log append all succeed and leave everything but the undo manager and
the `changed` flag unchanged. -/
theorem kdt_outer (tm : TM) (fuel : Nat) (R a b s2 cn : Nat) (cp : Int)
    (L : List Nat) (lg : String)
    (hlines : tm.lines = [{ node := a }])
    (hcur : tm.cursor = ⟨cn, cp, 0⟩)
    (hpars : tm.parsers = [⟨R, lg, false⟩])
    (hroots : tm.doc.roots.get? R = some ⟨a, b, none⟩)
    (ha1 : (getN tm.doc a).cls = NodeCls.bosC)
    (ha3 : (getN tm.doc a).root = R)
    (hb1 : (getN tm.doc b).cls = NodeCls.eosC)
    (hb2 : (getN tm.doc b).symk = SymKind.terminal)
    (hnx : (getN tm.doc a).nextT = some s2)
    (hfwd : fwdChain tm.doc R b L s2)
    (hcn : (getN tm.doc cn).root = R)
    (hgx : ∃ gx, getXAux tm.doc fuel cn cp = some gx)
    (hum : tm.um.stack = [] → tm.um.mode = "new")
    (hfl : L.length + 2 ≤ fuel) :
    ∃ u, key_deleteTail tm fuel true cn = some { tm with um := u, changed := true } := by
  obtain ⟨gx, hgx⟩ := hgx
  obtain ⟨u, hu⟩ := um_add_total gx 0 tm.um "delete" tm.last_delchar hum (Or.inr rfl)
  have hroots' : tm.doc.roots[R]? = some ⟨a, b, none⟩ := by
    rw [← List.get?_eq_getElem?]; exact hroots
  have hrlb := rlbLoop_fwdChain L s2 fuel [{ node := a }] 0 hfwd (by omega)
  have h1 : rescan_linebreaks tm fuel 0 = some tm := by
    unfold rescan_linebreaks
    simp [hlines, pyGet, get_eos, hpars, hroots', hnx, hrlb]
    rw [← hlines, ← hpars]
  have hill := illLoop_fwdChain hb1 L s2 fuel hfwd (by omega)
  have hlog : is_logical_line tm fuel 0 = some (decide (L ≠ [])) := by
    unfold is_logical_line
    simp [hlines, pyGet, hnx, hill]
  have hGI : get_indentation tm fuel 0 =
      some (if L = [] then none else some 0) := by
    unfold get_indentation
    by_cases hL : L = []
    · simp [hlog, hL]
    · obtain ⟨z, zs, hzz⟩ := List.exists_cons_of_ne_nil hL
      subst hzz
      obtain ⟨hz1, hz2, -⟩ := hfwd
      obtain ⟨f, hf⟩ : ∃ f, fuel = f + 1 := ⟨fuel - 1, by omega⟩
      have hskip : skipIndentNext tm.doc fuel s2 = some s2 := by
        rw [hf]
        simp [skipIndentNext, hz1 ▸ hz2.2.1]
      simp [hlog, hlines, pyGet, hnx, hskip, hz1 ▸ hz2.2.2.2.2.2]
  have hUIB : update_indentation_backwards tm fuel 0 = some tm := by
    unfold update_indentation_backwards
    obtain ⟨f, hf⟩ : ∃ f, fuel = f + 1 := ⟨fuel - 1, by omega⟩
    rw [hf] at hGI ⊢
    simp [hlines, pyGet, hGI, uibLoop]
    rw [← hlines]
  have hREP : repair_indentation tm fuel 0 = some tm := by
    unfold repair_indentation
    simp [hlines, pyGet, get_root, ha3, findParser, hpars]
  have hRSL : ∀ (th ci : Int) (cw : Option Int),
      rsiLoop fuel fuel tm 1 th cw ci = some tm := by
    intro th ci cw
    obtain ⟨f, hf⟩ : ∃ f, fuel = f + 1 := ⟨fuel - 1, by omega⟩
    conv_lhs => rw [hf]
    simp [rsiLoop, hlines]
  have heta : { tm with lines := [{ node := a }] } = tm := by rw [← hlines]
  have h2 : rescan_indentations tm fuel 0 = some tm := by
    unfold rescan_indentations
    by_cases hL : L = []
    · have hs2b : s2 = b := by rw [hL] at hfwd; exact hfwd
      have hrin : rinGo tm.doc fuel b = some (tm.doc, some b) := by
        obtain ⟨f, hf⟩ : ∃ f, fuel = f + 1 := ⟨fuel - 1, by omega⟩
        rw [hf]
        simp [rinGo, hb2]
      simp [hlog, hL, hlines, pyGet, hnx, hs2b, hrin,
        remove_indentation_nodes, heta, hUIB, hREP, hGI, hRSL]
    · simp [hlog, hL, hlines, pyGet, heta, hUIB, hREP, hGI, hRSL]
  have h3 : post_keypress tm fuel "" = some tm := by
    unfold post_keypress
    simp [hlines, hcur, h1, h2, forRangeTM]
  have h4 : reparse tm cn = some tm := by
    simp [reparse, get_root, hcn, findParser, hpars]
  refine ⟨u, ?_⟩
  simp [key_deleteTail, h3, h4, getX, hcur, hgx, hu]

theorem pySet_total {α : Type} {l : List α} {i : Int} {x : α} (f : α → α)
    (h : pyGet l i = some x) : ∃ l', pySet l i f = some l' := by
  simp only [pyGet] at h
  simp only [pySet]
  by_cases h1 : i < 0
  · rw [if_pos h1] at h ⊢
    by_cases h2 : (l.length : Int) + i < 0
    · rw [if_pos h2] at h
      exact absurd h (by simp)
    · rw [if_neg h2] at h ⊢
      rw [h]
      exact ⟨_, rfl⟩
  · rw [if_neg h1] at h ⊢
    rw [h]
    exact ⟨_, rfl⟩

theorem pyGet_pySet_ne {α : Type} {l l' : List α} {i j : Int} (f : α → α)
    (hi : 0 ≤ i) (hj : 0 ≤ j) (hij : j ≠ i)
    (h : pySet l i f = some l') : pyGet l' j = pyGet l j := by
  unfold pySet at h
  rw [if_neg (by omega)] at h
  cases hg : l.get? i.toNat with
  | none => rw [hg] at h; exact absurd h (by simp)
  | some x =>
    rw [hg] at h
    injection h with h
    subst h
    unfold pyGet
    rw [if_neg (by omega), if_neg (by omega)]
    exact List.get?_set_ne _ _ (by omega)

/-- The backward scan at the head of `repair_indentation` stops at the
nearest preceding line that is logical and of the same root. -/
theorem riDyLoop_finds (tm2 : TM) (fuel : Nat) (root : Nat) (y dy : Int)
    (lnDy : Line)
    (hlnDy : pyGet tm2.lines dy = some lnDy)
    (hlogdy : is_logical_line tm2 fuel dy = some true)
    (hrootdy : get_root tm2.doc lnDy.node = root)
    (hbet : ∀ i : Int, dy < i → i < y →
      (is_logical_line tm2 fuel i = some false ∧ ∃ ln, pyGet tm2.lines i = some ln) ∨
      (∃ ln, pyGet tm2.lines i = some ln ∧ is_logical_line tm2 fuel i = some true ∧
        get_root tm2.doc ln.node ≠ root)) :
    ∀ (steps : Nat) (dcur : Int), dy ≤ dcur → dcur < y → (dcur - dy).toNat < steps →
      riDyLoop tm2 fuel root steps dcur = some dy := by
  intro steps
  induction steps with
  | zero => intro dcur h1 h2 h3; omega
  | succ s ih =>
    intro dcur h1 h2 h3
    by_cases hceq : dcur = dy
    · subst hceq
      simp [riDyLoop, hlogdy, hlnDy, is_same_language, hrootdy]
    · rcases hbet dcur (by omega) h2 with ⟨hl, ln, hln⟩ | ⟨ln, hln, hl, hr⟩
      · simp [riDyLoop, hl, hln]
        exact ih (dcur - 1) (by omega) (by omega) (by omega)
      · simp [riDyLoop, hl, hln, is_same_language, Ne.symm hr]
        exact ih (dcur - 1) (by omega) (by omega) (by omega)

/-- The backward whitespace search of `find_indentation` stops at the
first earlier line whose (defined) whitespace is not greater than the
current one: equal yields that line's indent, strictly smaller yields
`None`. -/
theorem fiLoop_reaches (tm2 : TM) (fuel : Nat) (y j : Int) (w v : Int)
    (lnJ : Line)
    (hj0 : 0 ≤ j)
    (hlnJ : pyGet tm2.lines j = some lnJ)
    (hgij : get_indentation tm2 fuel j = some (some v))
    (hvw : v ≤ w)
    (hbet2 : ∀ i : Int, j < i → i < y →
      get_indentation tm2 fuel i = some none ∨
      ∃ u, get_indentation tm2 fuel i = some (some u) ∧ w < u) :
    ∀ (steps : Nat) (dcur : Int), j < dcur → dcur ≤ y → (dcur - j).toNat ≤ steps →
      fiLoop tm2 fuel (some w) steps dcur =
        some (if v = w then some lnJ.indent else none) := by
  intro steps
  induction steps with
  | zero => intro dcur h1 h2 h3; omega
  | succ s ih =>
    intro dcur h1 h2 h3
    have hpos : dcur > 0 := by omega
    by_cases hceq : dcur - 1 = j
    · by_cases hvweq : v = w
      · simp [fiLoop, hpos, hceq, hgij, pyOEq, hvweq, hlnJ]
      · have hvlt : v < w := lt_of_le_of_ne hvw hvweq
        simp [fiLoop, hpos, hceq, hgij, pyOEq, pyOLt, hvweq, hvlt]
    · rcases hbet2 (dcur - 1) (by omega) (by omega) with hn | ⟨u, hu, hwu⟩
      · simp [fiLoop, hpos, hn]
        exact ih (dcur - 1) (by omega) (by omega) (by omega)
      · have hne : (u == w) = false := by simp; omega
        have hnlt : pyOLt (some u) (some w) = false := by simp [pyOLt]; omega
        simp [fiLoop, hpos, hu, pyOEq, hne, hnlt]
        exact ih (dcur - 1) (by omega) (by omega) (by omega)

theorem pyInsertAt_append {α : Type} (l : List α) (x : α) (y : Int)
    (h0 : 0 ≤ y) (hlen : l.length = y.toNat + 1) :
    pyInsertAt l (y + 1) x = l ++ [x] := by
  unfold pyInsertAt
  rw [if_neg (by omega)]
  have h1 : (y + 1).toNat = l.length := by omega
  rw [h1]
  simp

/-- The line-break rescan loop along a box-entering walk appends one
`Line` record per visited `"\r"` node. -/
theorem rlbLoop_walk (d : Doc) (target : Nat) :
    ∀ (seq : List Nat) (c : Nat) (fuel : Nat) (lines : List Line) (y : Int),
      rlbWalk d target seq c → seq.length < fuel → 0 ≤ y →
      lines.length = y.toNat + 1 →
      rlbLoop d fuel lines y c target =
        some (lines ++ (seq.filter (fun x => (getN d x).name = "\r")).map
          (fun b => ({ node := b } : Line))) := by
  intro seq
  induction seq with
  | nil =>
    intro c fuel lines y hw hf hy hl
    obtain ⟨f, rfl⟩ : ∃ f, fuel = f + 1 := ⟨fuel - 1, by omega⟩
    cases hw
    simp [rlbLoop]
  | cons x xs ih =>
    intro c fuel lines y hw hf hy hl
    obtain ⟨f, rfl⟩ : ∃ f, fuel = f + 1 := ⟨fuel - 1, by omega⟩
    obtain ⟨hc, hne, hrest⟩ := hw
    subst hc
    have hfx : xs.length < f := by simp at hf; omega
    by_cases hmag : (getN d c).symk = SymKind.magicT
    · rw [if_pos hmag] at hrest
      obtain ⟨r, rr, har, hrr, hwk⟩ := hrest
      rw [List.get?_eq_getElem?] at hrr
      by_cases hbr : (getN d c).name = "\r"
      · have hins := pyInsertAt_append lines ({ node := c } : Line) y hy hl
        have := ih rr.bos f (lines ++ [{ node := c }]) (y + 1) hwk hfx (by omega)
          (by simp [hl]; omega)
        simp [rlbLoop, hne, hbr, hmag, har, hrr, hins, this, List.filter_cons,
          List.append_assoc]
      · have := ih rr.bos f lines y hwk hfx hy hl
        simp [rlbLoop, hne, hbr, hmag, har, hrr, this, List.filter_cons]
    · rw [if_neg hmag] at hrest
      by_cases heos : (getN d c).cls = NodeCls.eosC
      · rw [if_pos heos] at hrest
        obtain ⟨lbox, j, hlb, hj, hwk⟩ := hrest
        by_cases hbr : (getN d c).name = "\r"
        · have hins := pyInsertAt_append lines ({ node := c } : Line) y hy hl
          have := ih j f (lines ++ [{ node := c }]) (y + 1) hwk hfx (by omega)
            (by simp [hl]; omega)
          simp [rlbLoop, hne, hbr, hmag, heos, hlb, hj, hins, this,
            List.filter_cons, List.append_assoc]
        · have := ih j f lines y hwk hfx hy hl
          simp [rlbLoop, hne, hbr, hmag, heos, hlb, hj, this, List.filter_cons]
      · rw [if_neg heos] at hrest
        obtain ⟨j, hj, hwk⟩ := hrest
        by_cases hbr : (getN d c).name = "\r"
        · have hins := pyInsertAt_append lines ({ node := c } : Line) y hy hl
          have := ih j f (lines ++ [{ node := c }]) (y + 1) hwk hfx (by omega)
            (by simp [hl]; omega)
          simp [rlbLoop, hne, hbr, hmag, heos, hj, hins, this,
            List.filter_cons, List.append_assoc]
        · have := ih j f lines y hwk hfx hy hl
          simp [rlbLoop, hne, hbr, hmag, heos, hj, this, List.filter_cons]

/-- C7: whenever the cursor's node is the main root's `BOS` sentinel,
`key_backspace` rejects the edit before any mutation: it returns the state
exactly as received (node chain, line records and undo log untouched). -/
theorem C7_backspace_at_start_noop (fuel : Nat) (undo_mode : Bool) (tm : TM)
    (rr : RootRec) (hroots : tm.doc.roots.get? tm.mainroot = some rr)
    (hcur : tm.cursor.node = rr.bos) :
    key_backspace fuel undo_mode tm = some tm := by
  simp only [List.get?_eq_getElem?] at hroots
  simp [key_backspace, hroots, hcur]

/-- Witness for C7 at the empty document. -/
theorem C7_backspace_at_start_noop_witness :
    (emptyTM false).doc.roots.get? (emptyTM false).mainroot = some ⟨0, 1, none⟩ ∧
    (emptyTM false).cursor.node = (RootRec.mk 0 1 none).bos ∧
    key_backspace 5 true (emptyTM false) = some (emptyTM false) :=
  ⟨by decide, by decide,
   C7_backspace_at_start_noop 5 true (emptyTM false) ⟨0, 1, none⟩ (by decide) (by decide)⟩

/-- C10: with no active selection, the cursor not inside a node, and the
next visible node from the cursor being an `EOS` sentinel whose root has no
enclosing language box (the end of the outermost chain), `key_delete`
returns the state exactly as received: no node, line record or undo-stack
mutation. -/
theorem C10_delete_at_outer_end_noop (fuel : Nat) (undo_mode : Bool) (tm : TM)
    (e : Nat)
    (hsel : hasSelection tm = false)
    (hins : cursor_inside tm.doc tm.cursor = false)
    (hnext : find_next_visible tm.doc fuel tm.cursor.node = some e)
    (heos : (getN tm.doc e).cls = NodeCls.eosC)
    (hbox : get_languagebox tm e = none) :
    key_delete (fuel + 1) undo_mode tm = some tm := by
  simp [key_delete, hsel, hins, hnext, heos, hbox]

/-- Witness for C10 at the empty document. -/
theorem C10_delete_at_outer_end_noop_witness :
    hasSelection (emptyTM false) = false ∧
    cursor_inside (emptyTM false).doc (emptyTM false).cursor = false ∧
    find_next_visible (emptyTM false).doc 5 (emptyTM false).cursor.node = some 1 ∧
    (getN (emptyTM false).doc 1).cls = NodeCls.eosC ∧
    get_languagebox (emptyTM false) 1 = none ∧
    key_delete 6 true (emptyTM false) = some (emptyTM false) :=
  ⟨by decide, by decide, by decide, by decide, by decide,
   C10_delete_at_outer_end_noop 5 true (emptyTM false) 1 (by decide) (by decide)
     (by decide) (by decide) (by decide)⟩

/-- C1: typing `a` then a line break and undoing both coalesced entries
does restore the prior text and cursor position, but redoing the same
number of entries does not restore the later state: the redo of the
line-break entry positions the cursor on line `line1 = 1` (recorded after
`post_keypress` had already advanced the line) and `move_to_x` then reads
`lines[1]`, which no longer exists -- an IndexError, modelled as `none`. -/
theorem C1_undo_redo_inverse_fails :
    (c1AfterEdits.bind (fun tm => visibleText tm 60) = some ("a" ++ "\r")) ∧
    (c1AfterUndo.bind (fun tm => visibleText tm 60) = some "") ∧
    (c1AfterUndo.map (fun tm => (tm.cursor.line, getX tm.doc 60 tm.cursor)) =
      some (0, some 0)) ∧
    c1AfterRedo.isNone = true :=
  ⟨by decide, by decide, by decide, by decide⟩

/-- C8, counterexample: an ordinary terminal with zero-length text is
visible (`is_visible` is `true` on it) and both `find_next_visible` and
`find_previous_visible` return it. -/
theorem C8_counterexample :
    (getN c8Doc 2).name = "" ∧ is_visible c8Doc 2 = true ∧
    find_next_visible c8Doc 10 0 = some 2 ∧
    find_previous_visible c8Doc 10 1 = some 2 :=
  ⟨by decide, by decide, by decide, by decide⟩

/-- C8, amended: `is_visible` ignores text length entirely: it is `false`
exactly on indentation markers, the sentinels and boundary tokens, so a
zero-length ordinary terminal is visible; `find_next_visible` and
`find_previous_visible` return only visible nodes (possibly zero-length)
or a sentinel of the outermost chain. -/
theorem C8_amended_visibility (d : Doc) (fuel : Nat) (i : Nat) :
    (is_visible d i = false ↔
      ((getN d i).symk = SymKind.indentT ∨ (getN d i).cls = NodeCls.bosC ∨
       (getN d i).cls = NodeCls.eosC ∨ (getN d i).symk = SymKind.magicT)) ∧
    (∀ m, find_next_visible d fuel i = some m →
      is_visible d m = true ∨
      ((getN d m).cls = NodeCls.eosC ∧ get_magicterminal d (getN d m).root = none)) ∧
    (∀ m, find_previous_visible d fuel i = some m →
      is_visible d m = true ∨
      ((getN d m).cls = NodeCls.bosC ∧ get_magicterminal d (getN d m).root = none)) := by
  refine ⟨?_, ?_, ?_⟩
  · simp only [is_visible]
    split_ifs with h1 h2 h3 h4 <;> simp_all
  · intro m hm
    unfold find_next_visible at hm
    split at hm
    · split at hm
      · exact fnvLoop_result d fuel _ m hm
      · exact absurd hm (by simp)
    · exact fnvLoop_result d fuel _ m hm
  · intro m hm
    unfold find_previous_visible at hm
    split at hm
    · split at hm
      · exact fpvLoop_result d fuel _ m hm
      · exact absurd hm (by simp)
    · exact fpvLoop_result d fuel _ m hm

/-- Witness for C8's amended theorem: instantiated at the three-node
document, discharging the traversal hypothesis at the empty node. -/
theorem C8_amended_visibility_witness :
    is_visible c8Doc 2 = true ∨
    ((getN c8Doc 2).cls = NodeCls.eosC ∧
     get_magicterminal c8Doc (getN c8Doc 2).root = none) :=
  (C8_amended_visibility c8Doc 10 0).2.1 2 (by decide)

/-- C9: `Cursor.__gt__` holds exactly when `(line, get_x)` is
lexicographically greater with the line dominant; `Cursor.__eq__` holds
exactly when the nodes are identical and the offsets equal; and for two
cursors of the same document (cursors on the same node carry the same line
number) exactly one of `<`, `==`, `>` holds. -/
theorem C9_cursor_order_trichotomy (d : Doc) (fuel : Nat) (a b : Cursor)
    (xa xb : Int)
    (ha : getX d fuel a = some xa) (hb : getX d fuel b = some xb)
    (hline : a.node = b.node → a.line = b.line) :
    cursorGtB d fuel a b =
      some (decide (a.line > b.line ∨ (a.line = b.line ∧ xa > xb))) ∧
    (cursorEqB a b = true ↔ (a.node = b.node ∧ a.pos = b.pos)) ∧
    ∃ lv gv, cursorLtB d fuel a b = some lv ∧ cursorGtB d fuel a b = some gv ∧
      ((lv && !(cursorEqB a b) && !gv) ||
       (!lv && cursorEqB a b && !gv) ||
       (!lv && !(cursorEqB a b) && gv)) = true := by
  have heqiff : cursorEqB a b = true ↔ (a.node = b.node ∧ a.pos = b.pos) := by
    simp [cursorEqB]
  have hgt : cursorGtB d fuel a b =
      some (decide (a.line > b.line ∨ (a.line = b.line ∧ xa > xb))) := by
    unfold cursorGtB
    rcases lt_trichotomy a.line b.line with h | h | h
    · rw [if_neg (by omega), if_pos h]
      have hiff : (a.line > b.line ∨ (a.line = b.line ∧ xa > xb)) ↔ False := by
        constructor
        · rintro (h1 | ⟨h1, _⟩) <;> omega
        · exact False.elim
      simp [hiff]
    · rw [if_neg (by omega), if_neg (by omega)]
      simp only [ha, hb, Option.some_bind]
      have hiff : (a.line > b.line ∨ (a.line = b.line ∧ xa > xb)) ↔ (xa > xb) := by
        constructor
        · rintro (h1 | ⟨_, h2⟩)
          · omega
          · exact h2
        · intro h2
          exact Or.inr ⟨h, h2⟩
      simp [hiff]
    · rw [if_pos h]
      have hiff : (a.line > b.line ∨ (a.line = b.line ∧ xa > xb)) ↔ True := by
        simp [h]
      simp [hiff]
  have hlt : cursorLtB d fuel a b =
      some (!(decide (a.line > b.line ∨ (a.line = b.line ∧ xa > xb)) ||
              cursorEqB a b)) := by
    unfold cursorLtB
    rw [hgt]
    simp
  have hkey : cursorEqB a b = true →
      decide (a.line > b.line ∨ (a.line = b.line ∧ xa > xb)) = false := by
    intro hE
    obtain ⟨hn, hp⟩ := heqiff.mp hE
    have hxx : xa = xb := by
      have hab : getX d fuel a = getX d fuel b := by
        unfold getX
        rw [hn, hp]
      rw [ha, hb] at hab
      exact Option.some.inj hab
    have hl := hline hn
    apply decide_eq_false
    rintro (h1 | ⟨_, h2⟩) <;> omega
  refine ⟨hgt, heqiff, _, _, hlt, hgt, ?_⟩
  cases hE : cursorEqB a b
  · cases hP : decide (a.line > b.line ∨ (a.line = b.line ∧ xa > xb)) <;> simp
  · simp [hkey hE]

/-- Witness for C9 at the empty document with two equal cursors on the
`BOS`. -/
theorem C9_cursor_order_trichotomy_witness :
    cursorGtB (emptyTM false).doc 5 ⟨0, 0, 0⟩ ⟨0, 0, 0⟩ =
      some (decide ((0 : Int) > 0 ∨ ((0 : Int) = 0 ∧ (0 : Int) > 0))) ∧
    (cursorEqB ⟨0, 0, 0⟩ ⟨0, 0, 0⟩ = true ↔ ((0 : Nat) = 0 ∧ (0 : Int) = 0)) ∧
    (∃ lv gv,
      cursorLtB (emptyTM false).doc 5 ⟨0, 0, 0⟩ ⟨0, 0, 0⟩ = some lv ∧
      cursorGtB (emptyTM false).doc 5 ⟨0, 0, 0⟩ ⟨0, 0, 0⟩ = some gv ∧
      ((lv && !(cursorEqB ⟨0, 0, 0⟩ ⟨0, 0, 0⟩) && !gv) ||
       (!lv && cursorEqB ⟨0, 0, 0⟩ ⟨0, 0, 0⟩ && !gv) ||
       (!lv && !(cursorEqB ⟨0, 0, 0⟩ ⟨0, 0, 0⟩) && gv)) = true) :=
  C9_cursor_order_trichotomy (emptyTM false).doc 5 ⟨0, 0, 0⟩ ⟨0, 0, 0⟩ 0 0
    (by decide) (by decide) (fun _ => rfl)

/-- C6: a call to `UndoManager.add` (lines 244-259, before the size cap)
coalesces into the top-of-stack entry -- appending the text and updating
the end coordinates -- exactly when the command equals the current mode and
the text is neither a single space nor a string starting with a line break;
otherwise it pushes a fresh entry and deletes every entry after the current
stack position (the redo tail).  The hypotheses: the command is one of the
two kinds, and an empty stack implies mode `"new"` (the reachable-state
invariant that makes the top-of-stack read safe). -/
theorem C6_undo_coalescing (gx line : Int) (um : UndoManager) (cmd text : String)
    (hcmd : cmd = "insert" ∨ cmd = "delete")
    (hinv : um.stack = [] → um.mode = "new") :
    if um.mode = cmd ∧ text ≠ " " ∧ pyStartsWith text "\r" = false then
      um_addCore gx line um cmd text =
        some { stack := modifyLast um.stack (fun uo =>
                 { uo with text := uo.text ++ text, x2 := gx, line2 := line }),
               pos := um.pos, mode := um.mode }
    else
      um_addCore gx line um cmd text =
        some { stack := pyDelFrom um.stack (um.pos + 1) ++
                 [⟨cmd, text,
                   if cmd = "insert" then gx - (text.length : Int)
                   else gx + (text.length : Int),
                   line, (text.length : Int), line⟩],
               pos := um.pos + 1, mode := cmd } := by
  have hnew : cmd ≠ "new" := by
    rcases hcmd with h | h <;> simp [h]
  by_cases hsp : (decide (text = " ") || pyStartsWith text "\r") = true
  · have hcond : ¬(um.mode = cmd ∧ text ≠ " " ∧ pyStartsWith text "\r" = false) := by
      rintro ⟨-, h2, h3⟩
      rcases Bool.or_eq_true_iff.mp hsp with h | h
      · exact h2 (of_decide_eq_true h)
      · rw [h] at h3
        cases h3
    rw [if_neg hcond]
    rcases hcmd with h | h <;> subst h <;> simp +decide [um_addCore, hsp]
  · have hsp' : (decide (text = " ") || pyStartsWith text "\r") = false := by
      simpa using hsp
    have hts : text ≠ " " := by
      intro h
      simp [h] at hsp'
    have hpw : pyStartsWith text "\r" = false := by
      rcases Bool.or_eq_false_iff.mp hsp' with ⟨-, h⟩
      exact h
    by_cases hm : um.mode = cmd
    · rw [if_pos ⟨hm, hts, hpw⟩]
      have hne : um.stack ≠ [] := by
        intro h0
        exact hnew (hm.symm.trans (hinv h0))
      obtain ⟨x, hx⟩ := getLast?_of_ne_nil um.stack hne
      simp +decide [um_addCore, hsp', hm, hx]
    · rw [if_neg (fun hc => hm hc.1)]
      rcases hcmd with h | h <;> subst h <;> simp +decide [um_addCore, hsp', hm]

/-- Witness for C6 at the empty undo manager: the first insert creates a
fresh entry. -/
theorem C6_undo_coalescing_witness :
    if (UndoManager.mk [] (-1) "new").mode = "insert" ∧ ("a" : String) ≠ " " ∧
       pyStartsWith "a" "\r" = false then
      um_addCore 5 0 (UndoManager.mk [] (-1) "new") "insert" "a" =
        some { stack := modifyLast [] (fun uo =>
                 { uo with text := uo.text ++ "a", x2 := 5, line2 := 0 }),
               pos := -1, mode := "new" }
    else
      um_addCore 5 0 (UndoManager.mk [] (-1) "new") "insert" "a" =
        some { stack := pyDelFrom ([] : List UndoObject) (-1 + 1) ++
                 [⟨"insert", "a",
                   if ("insert" : String) = "insert" then 5 - (("a" : String).length : Int)
                   else 5 + (("a" : String).length : Int),
                   0, (("a" : String).length : Int), 0⟩],
               pos := -1 + 1, mode := "insert" } :=
  C6_undo_coalescing 5 0 (UndoManager.mk [] (-1) "new") "insert" "a"
    (Or.inl rfl) (fun _ => rfl)

/-- C5: `UndoManager.add` keeps the stack at no more than 100 entries: when
the coalescing step (lines 244-259) would leave 101, the cap (lines
261-263) removes the oldest (front) entry and decrements the stack
position, so the dropped entry is gone from the stack and can never be
reached by `undo` again; otherwise the cap changes nothing. -/
theorem C5_undo_stack_cap (gx line : Int) (um um1 : UndoManager)
    (cmd text : String)
    (hcore : um_addCore gx line um cmd text = some um1)
    (hlen : um.stack.length ≤ 100) :
    ∃ um2, um_add gx line um cmd text = some um2 ∧
      um2.stack.length ≤ 100 ∧
      (um1.stack.length > 100 →
        um1.stack.length = 101 ∧ um2.stack = um1.stack.drop 1 ∧
        um2.pos = um1.pos - 1) ∧
      (um1.stack.length ≤ 100 → um2 = um1) := by
  have hbound := um_addCore_length_le gx line um um1 cmd text hcore
  by_cases hc : um1.stack.length > 100
  · refine ⟨{ um1 with stack := um1.stack.drop 1, pos := um1.pos - 1 }, ?_, ?_, ?_, ?_⟩
    · unfold um_add
      rw [hcore]
      simp [hc]
    · simp only [List.length_drop]
      omega
    · intro _
      exact ⟨by omega, rfl, rfl⟩
    · intro h
      omega
  · refine ⟨um1, ?_, by omega, fun h => absurd h hc, fun _ => rfl⟩
    unfold um_add
    rw [hcore]
    simp [hc]

/-- Witness for C5: adding the first entry to an empty undo manager. -/
theorem C5_undo_stack_cap_witness :
    ∃ um2, um_add 5 0 (UndoManager.mk [] (-1) "new") "insert" "a" = some um2 ∧
      um2.stack.length ≤ 100 ∧
      ((UndoManager.mk [⟨"insert", "a", 4, 0, 1, 0⟩] 0 "insert").stack.length > 100 →
        (UndoManager.mk [⟨"insert", "a", 4, 0, 1, 0⟩] 0 "insert").stack.length = 101 ∧
        um2.stack =
          (UndoManager.mk [⟨"insert", "a", 4, 0, 1, 0⟩] 0 "insert").stack.drop 1 ∧
        um2.pos = (UndoManager.mk [⟨"insert", "a", 4, 0, 1, 0⟩] 0 "insert").pos - 1) ∧
      ((UndoManager.mk [⟨"insert", "a", 4, 0, 1, 0⟩] 0 "insert").stack.length ≤ 100 →
        um2 = UndoManager.mk [⟨"insert", "a", 4, 0, 1, 0⟩] 0 "insert") :=
  C5_undo_stack_cap 5 0 (UndoManager.mk [] (-1) "new")
    (UndoManager.mk [⟨"insert", "a", 4, 0, 1, 0⟩] 0 "insert") "insert" "a"
    (by decide) (by decide)

set_option maxHeartbeats 1000000 in
/-- C2: when a language box's nested chain holds exactly one non-sentinel
node carrying a single character, `key_delete` on that character removes
the boundary (magic) node from the outer chain, removes the box's
parser/lexer binding from the binding table and moves the cursor to the
previous visible node; the resulting visible text is the concatenation of
the outer tokens `pre ++ post` (the state before the box was created) and
the line count is the box-free count `1`. -/
theorem C2_empty_box_deletion
    (d : Doc) (fuel : Nat) (ob oe mg ib ch ie r0 r1 : Nat)
    (pre post : List Nat) (lang0 lang1 : String) (sel : Cursor)
    (um0 : UndoManager) (chg0 : Bool) (ldc0 : String) (tm : TM)
    (htm : tm = { doc := d, lines := [{ node := ob }], cursor := ⟨ib, 0, 0⟩,
                  selection_start := sel, selection_end := sel,
                  parsers := [⟨r0, lang0, false⟩, ⟨r1, lang1, false⟩],
                  mainroot := r0, um := um0, changed := chg0,
                  last_delchar := ldc0 })
    (hum : um0.stack = [] → um0.mode = "new")
    (hr0 : d.roots.get? r0 = some ⟨ob, oe, none⟩)
    (hr1 : d.roots.get? r1 = some ⟨ib, ie, some mg⟩)
    (hob1 : (getN d ob).cls = NodeCls.bosC)
    (hob2 : (getN d ob).symk = SymKind.terminal)
    (hob3 : (getN d ob).root = r0)
    (hoe1 : (getN d oe).cls = NodeCls.eosC)
    (hoe2 : (getN d oe).symk = SymKind.terminal)
    (hoe3 : (getN d oe).root = r0)
    (hmg1 : (getN d mg).symk = SymKind.magicT)
    (hib1 : (getN d ib).cls = NodeCls.bosC)
    (hib2 : (getN d ib).symk = SymKind.terminal)
    (hib3 : (getN d ib).root = r1)
    (hib4 : (getN d ib).nextT = some ch)
    (hch1 : (getN d ch).cls = NodeCls.textC)
    (hch2 : (getN d ch).symk = SymKind.terminal)
    (hch3 : (getN d ch).root = r1)
    (hch4 : (getN d ch).nextT = some ie)
    (hch5 : (getN d ch).prevT = some ib)
    (hch6 : (getN d ch).name.length = 1)
    (hch7 : (getN d ch).name ≠ "\r")
    (hch8 : (getN d ch).image = false)
    (hie1 : (getN d ie).cls = NodeCls.eosC)
    (hpre : outerRun d r0 ob pre mg)
    (hpost : outerRun d r0 mg post oe)
    (hnd : (ob :: oe :: mg :: ib :: ch :: ie :: (pre ++ post)).Nodup)
    (hfuel : pre.length + post.length + 6 ≤ fuel) :
    ∃ tm' P,
      key_delete (fuel + 1) true tm = some tm' ∧
      find_previous_visible tm.doc fuel ib = some P ∧
      tm'.cursor = ⟨P, ((getN tm.doc P).name.length : Int), 0⟩ ∧
      (getN tm'.doc mg).deleted = true ∧
      tm'.parsers = [⟨r0, lang0, false⟩] ∧
      visibleText tm' fuel =
        some (String.join ((pre ++ post).map (fun x => (getN tm.doc x).name))) ∧
      tm'.lines.length = 1 := by
  subst htm
  -- distinctness facts
  rw [List.nodup_cons] at hnd; obtain ⟨hobm, hnd⟩ := hnd
  rw [List.nodup_cons] at hnd; obtain ⟨hoem, hnd⟩ := hnd
  rw [List.nodup_cons] at hnd; obtain ⟨hmgm, hnd⟩ := hnd
  rw [List.nodup_cons] at hnd; obtain ⟨hibm, hnd⟩ := hnd
  rw [List.nodup_cons] at hnd; obtain ⟨hchm, hnd⟩ := hnd
  rw [List.nodup_cons] at hnd; obtain ⟨hiem, hnd⟩ := hnd
  rw [List.nodup_append] at hnd; obtain ⟨hndpre, hndpost, hdisj⟩ := hnd
  have hob_oe : ob ≠ oe := fun h => hobm (by simp [h])
  have hob_mg : ob ≠ mg := fun h => hobm (by simp [h])
  have hob_ib : ob ≠ ib := fun h => hobm (by simp [h])
  have hob_ch : ob ≠ ch := fun h => hobm (by simp [h])
  have hob_ie : ob ≠ ie := fun h => hobm (by simp [h])
  have hob_pre : ob ∉ pre := fun h => hobm (by simp [List.mem_append, h])
  have hob_post : ob ∉ post := fun h => hobm (by simp [List.mem_append, h])
  have hoe_mg : oe ≠ mg := fun h => hoem (by simp [h])
  have hoe_ch : oe ≠ ch := fun h => hoem (by simp [h])
  have hoe_pre : oe ∉ pre := fun h => hoem (by simp [List.mem_append, h])
  have hoe_post : oe ∉ post := fun h => hoem (by simp [List.mem_append, h])
  have hmg_ch : mg ≠ ch := fun h => hmgm (by simp [h])
  have hmg_pre : mg ∉ pre := fun h => hmgm (by simp [List.mem_append, h])
  have hmg_post : mg ∉ post := fun h => hmgm (by simp [List.mem_append, h])
  have hib_ch : ib ≠ ch := fun h => hibm (by simp [h])
  have hch_ie : ch ≠ ie := fun h => hchm (by simp [h])
  have hch_pre : ch ∉ pre := fun h => hchm (by simp [List.mem_append, h])
  have hch_post : ch ∉ post := fun h => hchm (by simp [List.mem_append, h])
  have hr01 : r0 ≠ r1 := by
    intro h
    rw [h, hr1] at hr0
    simp at hr0
  -- the deleted character
  have hch6' : (getN d ch).name.toList.length = 1 := hch6
  obtain ⟨cCh, hcCh⟩ := List.length_eq_one.mp hch6'
  have hcCh2 : (getN d ch).name.data = [cCh] := hcCh
  have hr0' : d.roots[r0]? = some ⟨ob, oe, none⟩ := by
    rw [← List.get?_eq_getElem?]; exact hr0
  have hr1' : d.roots[r1]? = some ⟨ib, ie, some mg⟩ := by
    rw [← List.get?_eq_getElem?]; exact hr1
  -- the document after erasing the box's single character
  set nm1 : String :=
    pySubTo (getN d ch).name 0 ++ pySubFrom (getN d ch).name (0 + 1) with hnm1
  set d1 : Doc := setN d ch { getN d ch with name := nm1 } with hd1
  have hbs : node_backspace d ch 0 = some (d1, String.mk [cCh]) := by
    rw [hd1, hnm1]
    unfold node_backspace pyStrAt
    simp [hcCh2]
  have hg1_ch : getN d1 ch = { getN d ch with name := nm1 } := by
    rw [hd1, setN_getN, if_pos rfl]
  have hg1_other : ∀ x, x ≠ ch → getN d1 x = getN d x := by
    intro x hx
    rw [hd1, setN_getN, if_neg hx]
  have hname1 : (getN d1 ch).name = "" := by
    rw [hg1_ch]
    show nm1 = ""
    rw [hnm1]
    simp [pySubTo, pySubFrom, pySliceBound, hcCh2, String.length]
  have hroots1 : d1.roots = d.roots := by rw [hd1]; exact setN_roots d ch _
  have hch1' : (getN d1 ch).cls = NodeCls.textC := by rw [hg1_ch]; exact hch1
  have hch3' : (getN d1 ch).root = r1 := by rw [hg1_ch]; exact hch3
  have hch4' : (getN d1 ch).nextT = some ie := by rw [hg1_ch]; exact hch4
  have hch5' : (getN d1 ch).prevT = some ib := by rw [hg1_ch]; exact hch5
  have hgOb : getN d1 ob = getN d ob := hg1_other ob hob_ch
  have hgOe : getN d1 oe = getN d oe := hg1_other oe hoe_ch
  have hgMg : getN d1 mg = getN d mg := hg1_other mg hmg_ch
  have hgIb : getN d1 ib = getN d ib := hg1_other ib hib_ch
  have hgIe : getN d1 ie = getN d ie := hg1_other ie (Ne.symm hch_ie)
  -- the outer runs survive the text edit
  have hpre1 : outerRun d1 r0 ob pre mg := by
    rw [hd1]
    refine outerRun_setN hpre ?_
    intro hmem
    rcases List.mem_cons.mp hmem with h | h
    · exact hob_ch h.symm
    rcases List.mem_append.mp h with h | h
    · exact hch_pre h
    · exact hmg_ch (List.mem_singleton.mp h).symm
  have hpost1 : outerRun d1 r0 mg post oe := by
    rw [hd1]
    refine outerRun_setN hpost ?_
    intro hmem
    rcases List.mem_cons.mp hmem with h | h
    · exact hmg_ch h.symm
    rcases List.mem_append.mp h with h | h
    · exact hch_post h
    · exact hoe_ch (List.mem_singleton.mp h).symm
  -- the landing node of the cursor
  set P : Nat := (ob :: pre).getLast (by simp) with hP
  have hmgprev : (getN d mg).prevT = some P := by
    rw [hP]; exact outerRun_last_prev hpre
  have hPfacts : (P = ob ∧ pre = []) ∨ (P ∈ pre ∧ isOuterTok d r0 P) := by
    rcases getLast_cons_cases ob pre with ⟨h1, h2⟩ | h1
    · exact Or.inl ⟨by rw [hP]; exact h1, h2⟩
    · have hmem : P ∈ pre := by rw [hP]; exact h1
      exact Or.inr ⟨hmem, outerRun_mem_tok hpre P hmem⟩
  have hP_ch : P ≠ ch := by
    rcases hPfacts with ⟨h1, -⟩ | ⟨h1, -⟩
    · rw [h1]; exact hob_ch
    · exact fun hh => hch_pre (hh ▸ h1)
  have hgP : getN d1 P = getN d P := hg1_other P hP_ch
  -- `find_previous_visible` from the inner `BOS` lands on `P`
  have hPvisAux : ∀ dx : Doc, dx.roots = d.roots →
      (∀ x, x ≠ ch → getN dx x = getN d x) →
      is_visible dx P = true ∨
      ((getN dx P).cls = NodeCls.bosC ∧
        get_magicterminal dx (getN dx P).root = none) := by
    intro dx hrx hax
    rcases hPfacts with ⟨h1, -⟩ | ⟨-, htok⟩
    · right
      refine ⟨by rw [hax P hP_ch, h1]; exact hob1, ?_⟩
      rw [hax P hP_ch, h1, hob3]
      simp [get_magicterminal, hrx, hr0']
    · left
      exact vis_of_tok (by rw [hax P hP_ch]; exact htok.1)
        (by rw [hax P hP_ch]; exact htok.2.1)
  have hfpvLoopAux : ∀ dx : Doc, dx.roots = d.roots →
      (∀ x, x ≠ ch → getN dx x = getN d x) →
      fpvLoop dx fuel ib = some P := by
    intro dx hrx hax
    obtain ⟨f, hf⟩ : ∃ f, fuel = f + 2 := ⟨fuel - 2, by omega⟩
    rw [hf]
    have hvib : is_visible dx ib = false :=
      not_vis_of_bos (by rw [hax ib hib_ch]; exact hib1)
    have hclsx : (getN dx ib).cls = NodeCls.bosC := by
      rw [hax ib hib_ch]; exact hib1
    have hmgx : get_magicterminal dx (getN dx ib).root = some mg := by
      rw [hax ib hib_ch, hib3]
      simp [get_magicterminal, hrx, hr1']
    have hpvx : (getN dx mg).prevT = some P := by
      rw [hax mg hmg_ch]; exact hmgprev
    rcases hPvisAux dx hrx hax with hv | ⟨hv1, hv2⟩
    · simp [fpvLoop, hvib, hclsx, hmgx, hpvx, hv]
    · have hvf : is_visible dx P = false := not_vis_of_bos hv1
      simp [fpvLoop, hvib, hclsx, hmgx, hpvx, hvf, hv1, hv2]
  have hfpv_d1_ib : find_previous_visible d1 fuel ib = some P := by
    unfold find_previous_visible
    rw [show is_visible d1 ib = false from
      not_vis_of_bos (by rw [hgIb]; exact hib1)]
    simpa using hfpvLoopAux d1 hroots1 hg1_other
  have hfpv_d_ib : find_previous_visible d fuel ib = some P := by
    unfold find_previous_visible
    rw [show is_visible d ib = false from not_vis_of_bos hib1]
    simpa using hfpvLoopAux d rfl (fun x _ => rfl)
  have hrp_ch : find_previous_visible d1 fuel ch = some P := by
    unfold find_previous_visible
    rw [show is_visible d1 ch = true from vis_of_tok hch1' (by rw [hg1_ch]; exact hch2),
      hch5']
    simpa using hfpvLoopAux d1 hroots1 hg1_other
  -- the document after removing the boundary node
  set d2 : Doc := remove_child d1 mg with hd2
  have hrun2 : outerRun d2 r0 ob (pre ++ post) oe := by
    rw [hd2]
    exact spliced_run hpre1 hpost1 hob_pre hob_post hob_oe hob_mg hmg_pre hmg_post
      (Ne.symm hoe_mg) hoe_pre hoe_post (fun x hx hx2 => hdisj hx hx2) hndpre hndpost
  obtain ⟨s2, hs2, hfwd2⟩ := outerRun_to_fwd hrun2
  have hroots2 : d2.roots = d.roots := by
    rw [hd2, remove_child_roots, hroots1]
  have hob1_2 : (getN d2 ob).cls = NodeCls.bosC := by
    rw [hd2, (rc_fields d1 mg ob).1, hgOb]; exact hob1
  have hob2_2 : (getN d2 ob).symk = SymKind.terminal := by
    rw [hd2, (rc_fields d1 mg ob).2.1, hgOb]; exact hob2
  have hob3_2 : (getN d2 ob).root = r0 := by
    rw [hd2, (rc_fields d1 mg ob).2.2.2.1, hgOb]; exact hob3
  have hoe1_2 : (getN d2 oe).cls = NodeCls.eosC := by
    rw [hd2, (rc_fields d1 mg oe).1, hgOe]; exact hoe1
  have hoe2_2 : (getN d2 oe).symk = SymKind.terminal := by
    rw [hd2, (rc_fields d1 mg oe).2.1, hgOe]; exact hoe2
  have hoe3_2 : (getN d2 oe).root = r0 := by
    rw [hd2, (rc_fields d1 mg oe).2.2.2.1, hgOe]; exact hoe3
  have hmt2none : get_magicterminal d2 r0 = none := by
    simp [get_magicterminal, hroots2, hr0']
  have hrootP2 : (getN d2 P).root = r0 := by
    rw [hd2, (rc_fields d1 mg P).2.2.2.1, hgP]
    rcases hPfacts with ⟨h1, -⟩ | ⟨-, htok⟩
    · rw [h1]; exact hob3
    · exact htok.2.2.2.1
  -- the next node after the (spliced-out) boundary
  have hspost := outerRun_head_next hpost1
  have hspost_ne_pre : ∀ x ∈ pre, (post ++ [oe]).head (by simp) ≠ x := by
    intro x hx
    rcases List.mem_append.mp (@List.head_mem _ (post ++ [oe]) (by simp)) with h | h
    · exact fun hh => hdisj hx (hh ▸ h)
    · rw [List.mem_singleton.mp h]
      exact fun hh => hoe_pre (hh ▸ hx)
  -- `get_x` of the landing position succeeds
  have hgx : ∃ gx, getXAux d2 fuel P ((getN d P).name.length : Int) = some gx := by
    rcases hPfacts with ⟨h1, -⟩ | ⟨hmem, htok⟩
    · refine ⟨0, ?_⟩
      unfold getXAux
      rw [h1]
      simp [hob1_2]
    · have hpreNe : pre ≠ [] := fun h0 => by rw [h0] at hmem; cases hmem
      have hbwd1 : bwdChain d1 r0 ob pre.reverse (pre.getLast hpreNe) :=
        outerRun_to_bwd hpre1 hpreNe
      have hPlast : P = pre.getLast hpreNe := by
        rw [hP]
        exact List.getLast_cons hpreNe
      obtain ⟨y, ys, hrev⟩ := List.exists_cons_of_ne_nil
        (fun h0 => hpreNe (List.reverse_eq_nil_iff.mp h0))
      rw [hrev] at hbwd1
      obtain ⟨hcy, htoky, hmy⟩ := hbwd1
      have hys_pre : ∀ x ∈ ys, x ∈ pre := by
        intro x hx
        have : x ∈ pre.reverse := by rw [hrev]; simp [hx]
        exact List.mem_reverse.mp this
      have hP_y : P = y := hPlast.trans hcy
      have htok2 : isOuterTok d2 r0 P := by
        rw [hd2, hP_y]
        exact isOuterTok_rc mg htoky
      have hprev2 : (getN d2 P).prevT = (getN d1 P).prevT := by
        rw [hd2]
        refine rc_prevT_other d1 mg P ?_
        intro hcontr
        rw [hspost] at hcontr
        injection hcontr with h2
        exact hspost_ne_pre P hmem h2
      cases hpy : (getN d1 y).prevT with
      | none => rw [hpy] at hmy; exact absurd hmy (by simp)
      | some j =>
        rw [hpy] at hmy
        have hbwd2 : bwdChain d2 r0 ob ys j := by
          rw [hd2]
          refine bwdChain_rc hmy ?_
          rw [hspost]
          intro q hq hqin
          have : q = (post ++ [oe]).head (by simp) := by injection hq with h2; exact h2.symm
          exact hspost_ne_pre q (hys_pre q hqin) this.symm
        have hprevP2 : (getN d2 P).prevT = some j := by
          rw [hprev2, hP_y, hpy]
        have hstopj : fpvLoop d2 fuel j = some j := by
          refine fpvLoop_stop ?_ fuel (by omega)
          cases ys with
          | nil =>
            cases hbwd2
            right
            refine ⟨hob1_2, ?_⟩
            rw [hob3_2]
            exact hmt2none
          | cons w ws =>
            obtain ⟨hw, htokw, -⟩ := hbwd2
            exact Or.inl (isOuterTok_visible (hw ▸ htokw))
        have hfpvP : find_previous_visible d2 fuel P = some j := by
          unfold find_previous_visible
          rw [show is_visible d2 P = true from vis_of_tok htok2.1 htok2.2.1, hprevP2]
          exact hstopj
        have hyslen : ys.length + 1 = pre.length := by
          have := congrArg List.length hrev
          simpa using this.symm
        obtain ⟨v, hv⟩ := getXLoop_bwdChain hob1_2 (by rw [hob3_2]; exact hmt2none)
          ys j ((getN d P).name.length : Int) fuel fuel hbwd2 (by omega) (by omega)
        refine ⟨v, ?_⟩
        unfold getXAux
        rw [if_neg (by push_neg; exact ⟨htok2.2.2.1, by rw [htok2.1]; simp⟩), hfpvP]
        exact hv
  -- the state handed to the shared tail
  obtain ⟨T2, hT2⟩ : ∃ t : TM, t =
      { doc := d2, lines := [{ node := ob }],
        cursor := ⟨P, ((getN d P).name.length : Int), 0⟩,
        selection_start := sel, selection_end := sel,
        parsers := [⟨r0, lang0, false⟩],
        mainroot := r0, um := um0, changed := chg0,
        last_delchar := String.mk [cCh] } := ⟨_, rfl⟩
  -- evaluation of `key_delete` down to the shared tail
  have hfnv : find_next_visible d fuel ib = some ch := by
    obtain ⟨f, hf⟩ : ∃ f, fuel = f + 2 := ⟨fuel - 2, by omega⟩
    rw [hf]
    have h1 : is_visible d ib = false := not_vis_of_bos hib1
    have h2 : is_visible d ch = true := vis_of_tok hch1 hch2
    simp [find_next_visible, fnvLoop, h1, h2, hib1, hib2, hib4]
  have hskip : skipIndentNext d fuel ch = some ch := by
    obtain ⟨f, hf⟩ : ∃ f, fuel = f + 1 := ⟨fuel - 1, by omega⟩
    rw [hf]
    simp [skipIndentNext, hch2]
  have hmt1 : get_magicterminal d1 r1 = some mg := by
    simp [get_magicterminal, hroots1, hr1']
  have hch2' : (getN d1 ch).symk = SymKind.terminal := by rw [hg1_ch]; exact hch2
  have hie1' : (getN d1 ie).cls = NodeCls.eosC := by rw [hgIe]; exact hie1
  have hib1' : (getN d1 ib).cls = NodeCls.bosC := by rw [hgIb]; exact hib1
  have hdelp : delParserGo r1 3 [⟨r0, lang0, false⟩, ⟨r1, lang1, false⟩] 0 =
      [⟨r0, lang0, false⟩] := by
    have hbe : (r0 == r1) = false := by simp [hr01]
    simp [delParserGo, hbe]
  have hrelex : relex T2 P = some T2 := by
    rw [hT2]
    simp [relex, get_root, hrootP2, findParser]
  rw [hT2] at hrelex
  have hA : key_delete (fuel + 1) true
      { doc := d, lines := [{ node := ob }], cursor := ⟨ib, 0, 0⟩,
        selection_start := sel, selection_end := sel,
        parsers := [⟨r0, lang0, false⟩, ⟨r1, lang1, false⟩],
        mainroot := r0, um := um0, changed := chg0, last_delchar := ldc0 } =
      key_deleteTail T2 fuel true P := by
    rw [hT2]
    simp [key_delete, hasSelection, cursorEqB_self, cursor_inside, hfnv, hch1,
      hskip, hch2, hch8, hch7, hbs, hname1, hch1', hrp_ch, get_root, hch3',
      hmt1, hch4', hch5', hie1', hib1', hfpv_d1_ib, hgP, deleteParser, hdelp,
      hrelex, ← hd2]
  obtain ⟨u, hu⟩ := kdt_outer T2 fuel r0 ob oe s2 P
      ((getN d P).name.length : Int) (pre ++ post) lang0
      (by rw [hT2]) (by rw [hT2]) (by rw [hT2])
      (by rw [hT2]; show d2.roots.get? r0 = _; rw [hroots2]; exact hr0)
      (by rw [hT2]; exact hob1_2) (by rw [hT2]; exact hob3_2)
      (by rw [hT2]; exact hoe1_2) (by rw [hT2]; exact hoe2_2)
      (by rw [hT2]; exact hs2) (by rw [hT2]; exact hfwd2)
      (by rw [hT2]; exact hrootP2) (by rw [hT2]; exact hgx)
      (by rw [hT2]; exact hum)
      (by rw [List.length_append]; omega)
  have hvt : visibleText { T2 with um := u, changed := true } fuel =
      some (String.join ((pre ++ post).map (fun x => (getN d x).name))) := by
    rw [hT2]
    obtain ⟨f, hf⟩ : ∃ f, fuel = f + 1 := ⟨fuel - 1, by omega⟩
    have hvtl : visTextLoop d2 f s2 =
        some ((pre ++ post).map (fun x => (getN d2 x).name)) :=
      visTextLoop_fwdChain hoe1_2 (by rw [hoe3_2]; exact hmt2none) (pre ++ post)
        s2 f hfwd2 (by rw [List.length_append]; omega)
    have hmap : (pre ++ post).map (fun x => (getN d2 x).name) =
        (pre ++ post).map (fun x => (getN d x).name) := by
      refine List.map_congr_left ?_
      intro x hx
      have hx_ch : x ≠ ch := by
        intro hh
        rcases List.mem_append.mp hx with h | h
        · exact hch_pre (hh ▸ h)
        · exact hch_post (hh ▸ h)
      rw [hd2, (rc_fields d1 mg x).2.2.1, hg1_other x hx_ch]
    rw [hf]
    simp [visibleText, get_bos, pyGet, hroots2, hr0', hob1_2, hob2_2, hs2,
      hvtl, hmap, visTextLoop, not_vis_of_bos hob1_2]
  refine ⟨{ T2 with um := u, changed := true }, P, hA.trans hu, hfpv_d_ib,
    ?_, ?_, ?_, hvt, ?_⟩
  · rw [hT2]
  · rw [hT2]
    show (getN d2 mg).deleted = true
    rw [hd2]
    exact rc_deleted_self d1 mg
  · rw [hT2]
  · rw [hT2]
    rfl

/-- Witness for C2: deleting the single character `"x"` of the box in
`c2Doc` removes the boundary node and the box's parser binding, puts the
cursor on the previous visible node and leaves an empty one-line
document. -/
theorem C2_empty_box_deletion_witness :
    ∃ tm' P,
      key_delete (6 + 1) true c2TM = some tm' ∧
      find_previous_visible c2TM.doc 6 3 = some P ∧
      tm'.cursor = ⟨P, ((getN c2TM.doc P).name.length : Int), 0⟩ ∧
      (getN tm'.doc 2).deleted = true ∧
      tm'.parsers = [⟨0, "main", false⟩] ∧
      visibleText tm' 6 =
        some (String.join ((([] : List Nat) ++ []).map
          (fun x => (getN c2TM.doc x).name))) ∧
      tm'.lines.length = 1 :=
  C2_empty_box_deletion c2Doc 6 0 1 2 3 4 5 0 1 [] [] "main" "calc"
    ⟨3, 0, 0⟩ {} false "" c2TM rfl (fun _ => rfl) rfl rfl
    rfl rfl rfl rfl rfl rfl rfl rfl rfl rfl rfl rfl rfl rfl rfl rfl rfl
    (by decide) rfl rfl ⟨rfl, rfl⟩ ⟨rfl, rfl⟩ (by decide) (by decide)

/-- C3, counterexample: at line 5 of `c3Doc` (whitespace 4, preceding
logical line has whitespace 8) an earlier line with an equal whitespace
count exists (line 2), yet `find_indentation` aborts at line 3's smaller
count and `repair_indentation` emits a single `UNBALANCED` marker, never
the `DEDENT*k, NEWLINE` sequence the claim requires for this case. -/
theorem C3_counterexample :
    is_logical_line c3TM 8 5 = some true ∧
    get_indentation c3TM 8 5 = some (some 4) ∧
    get_indentation c3TM 8 4 = some (some 8) ∧
    get_indentation c3TM 8 3 = some (some 2) ∧
    get_indentation c3TM 8 2 = some (some 4) ∧
    find_indentation c3TM 8 5 = some none ∧
    (riMarkers c3TM 8 5).map (fun r => r.1) = some ["UNBALANCED"] ∧
    ((repair_indentation c3TM 8 5).bind
      (fun tm2 => indentation_nodes_changed tm2 8 5 ["UNBALANCED"])) = some true ∧
    (∀ k, (["UNBALANCED"] : List String) ≠ List.replicate k "DEDENT" ++ ["NEWLINE"]) :=
  ⟨by decide, by decide, by decide, by decide, by decide, by decide, by decide,
   by decide, by intro k; cases k <;> simp [List.replicate_succ]⟩

set_option maxHeartbeats 1000000 in
/-- C3, amended: for a logical line `y > 0`, against the nearest preceding
logical line of the same root: equal whitespace keeps that line's indent
and emits `NEWLINE`; greater takes its indent plus one and emits
`INDENT, NEWLINE`; on smaller whitespace the backward search examines
earlier lines nearest-first and stops at the first line whose defined
whitespace is less than or equal to the current one: if that stop line's
whitespace is equal, its indent becomes this line's level with
`DEDENT`*(previous level - this level) then `NEWLINE`, and if it is
strictly smaller a single `UNBALANCED` marker is emitted - even when a
more distant line has an equal whitespace count. -/
theorem C3_amended_dispatch
    (tm : TM) (fuel : Nat) (y dy j : Int) (w pw v : Int)
    (lnY lnDy lnJ : Line) (lines2 : List Line) (tm2 : TM)
    (htm2 : tm2 = { tm with lines := lines2 })
    (hy : 0 < y)
    (hlog : is_logical_line tm fuel y = some true)
    (hgiy : get_indentation tm fuel y = some (some w))
    (hset : pySet tm.lines y (fun l => { l with ws := w }) = some lines2)
    (hlnY2 : pyGet lines2 y = some lnY)
    (hgiy2 : get_indentation tm2 fuel y = some (some w))
    (hdy0 : 0 ≤ dy) (hdyy : dy < y)
    (hlnDy : pyGet lines2 dy = some lnDy)
    (hlogdy : is_logical_line tm2 fuel dy = some true)
    (hrootdy : get_root tm2.doc lnDy.node = get_root tm2.doc lnY.node)
    (hbet : ∀ i : Int, dy < i → i < y →
      (is_logical_line tm2 fuel i = some false ∧ ∃ ln, pyGet lines2 i = some ln) ∨
      (∃ ln, pyGet lines2 i = some ln ∧ is_logical_line tm2 fuel i = some true ∧
        get_root tm2.doc ln.node ≠ get_root tm2.doc lnY.node))
    (hgidy : get_indentation tm2 fuel dy = some (some pw))
    (hj0 : 0 ≤ j) (hjy : j < y)
    (hlnJ : pyGet lines2 j = some lnJ)
    (hgij : get_indentation tm2 fuel j = some (some v))
    (hvw : v ≤ w)
    (hbet2 : ∀ i : Int, j < i → i < y →
      get_indentation tm2 fuel i = some none ∨
      ∃ u, get_indentation tm2 fuel i = some (some u) ∧ w < u)
    (hfl : y.toNat + 2 ≤ fuel) :
    (riMarkers tm fuel y).map (fun r => r.1) =
      some (if pw = w then ["NEWLINE"]
        else if pw < w then ["INDENT", "NEWLINE"]
        else if v = w then
          List.replicate (lnDy.indent - lnJ.indent).toNat "DEDENT" ++ ["NEWLINE"]
        else ["UNBALANCED"]) := by
  subst htm2
  have hrdy : riDyLoop { tm with lines := lines2 } fuel
      (get_root tm.doc lnY.node) fuel (y - 1) = some dy := by
    refine riDyLoop_finds { tm with lines := lines2 } fuel _ y dy lnDy hlnDy hlogdy
      hrootdy hbet fuel (y - 1) (by omega) (by omega) (by omega)
  rcases lt_trichotomy pw w with hlt | heq | hgt
  · obtain ⟨lines3, hset3⟩ :=
      pySet_total (fun l => { l with indent := lnDy.indent + 1 }) hlnY2
    simp [riMarkers, (show ¬ y = 0 by omega), hlog, hgiy, hset, hlnY2, hrdy,
      hgidy, pyOEq, pyOLt, pyOGt, (show ¬ pw = w by omega), hlt, hlnDy, hset3]
  · obtain ⟨lines3, hset3⟩ :=
      pySet_total (fun l => { l with indent := lnDy.indent }) hlnY2
    simp [riMarkers, (show ¬ y = 0 by omega), hlog, hgiy, hset, hlnY2, hrdy,
      hgidy, pyOEq, heq, hlnDy, hset3]
  · have hfil := fiLoop_reaches { tm with lines := lines2 } fuel y j w v lnJ hj0
      hlnJ hgij hvw hbet2 fuel y hjy (le_refl y) (by omega)
    have hfi : find_indentation { tm with lines := lines2 } fuel y =
        some (if v = w then some lnJ.indent else none) := by
      simp [find_indentation, hgiy2, hfil]
    by_cases hvw2 : v = w
    · obtain ⟨lines3, hset3⟩ :=
        pySet_total (fun l => { l with indent := lnJ.indent }) hlnY2
      have hdln : pyGet lines3 dy = some lnDy := by
        rw [pyGet_pySet_ne _ (by omega) hdy0 (by omega) hset3]
        exact hlnDy
      simp [riMarkers, (show ¬ y = 0 by omega), hlog, hgiy, hset, hlnY2, hrdy,
        hgidy, pyOEq, pyOLt, pyOGt, (show ¬ pw = w by omega),
        (show ¬ pw < w by omega), hgt, hfi, hvw2, hset3, hdln]
    · simp [riMarkers, (show ¬ y = 0 by omega), hlog, hgiy, hset, hlnY2, hrdy,
        hgidy, pyOEq, pyOLt, pyOGt, (show ¬ pw = w by omega),
        (show ¬ pw < w by omega), hgt, hfi, hvw2]

/-- Witness for the amended C3 at `c3TM`, line 5: whitespace 4 against the
nearest logical line's 8; the search stops at line 3 (whitespace 2 < 4),
so `UNBALANCED` is emitted although line 2 has the equal count 4. -/
theorem C3_amended_dispatch_witness :
    (riMarkers c3TM 8 5).map (fun r => r.1) =
      some (if (8 : Int) = 4 then ["NEWLINE"]
        else if (8 : Int) < 4 then ["INDENT", "NEWLINE"]
        else if (2 : Int) = 4 then
          List.replicate ((⟨11, 1, 0, 2, 8⟩ : Line).indent -
            (⟨8, 1, 0, 1, 2⟩ : Line).indent).toNat "DEDENT" ++ ["NEWLINE"]
        else ["UNBALANCED"]) :=
  C3_amended_dispatch c3TM 8 5 4 3 4 8 2 ⟨14, 1, 0, 2, 4⟩ ⟨11, 1, 0, 2, 8⟩
    ⟨8, 1, 0, 1, 2⟩ c3Lines2 { c3TM with lines := c3Lines2 } rfl
    (by decide) (by decide) (by decide) (by decide) (by decide) (by decide)
    (by decide) (by decide) (by decide) (by decide) (by decide)
    (fun i h1 h2 => absurd h2 (by omega))
    (by decide) (by decide) (by decide) (by decide) (by decide) (by decide)
    (by intro i h1 h2
        have h4 : i = 4 := by omega
        subst h4
        right
        exact ⟨8, by decide, by decide⟩)
    (by decide)

/-- C4, counterexample: after a complete edit operation (`key_normal "a"`)
on a document whose language box holds a line break, the line index has
two records, while the claim's box-excluding view-level traversal counts
zero line-break tokens: the count includes the sentinel line of `BOS` and
the box-internal break registered by the box-entering rescan. -/
theorem C4_counterexample :
    (key_normal 30 true "a" c4TM).map (fun r => r.1.lines.length) = some 2 ∧
    (key_normal 30 true "a" c4TM).bind (fun r => viewBreakCount r.1 30) =
      some 0 ∧
    (2 : Nat) ≠ 0 :=
  ⟨by decide, by decide, by decide⟩

set_option maxHeartbeats 1000000 in
/-- C4, amended: the line index kept by the rescan is `Line(BOS)` followed
by one record per line-break token of the BOX-ENTERING traversal (the
nested chains of language boxes are entered at their boundary node and
left through it, their breaks registered in the same shared list), so the
number of `Line` records is `1 +` that count: one more than the number of
reachable breaks, and box content is included, not excluded. -/
theorem C4_amended_line_index (tm : TM) (fuel : Nat) (a oe s2 R : Nat)
    (p : ParserRec) (seq : List Nat)
    (hlines : tm.lines = [{ node := a }])
    (hpars : tm.parsers.get? 0 = some p)
    (hpR : p.root = R)
    (hroots : tm.doc.roots.get? R = some ⟨a, oe, none⟩)
    (hnx : (getN tm.doc a).nextT = some s2)
    (hwalk : rlbWalk tm.doc oe seq s2)
    (hfl : seq.length < fuel) :
    ∃ lines', rescan_linebreaks tm fuel 0 = some { tm with lines := lines' } ∧
      lines' = { node := a } ::
        (seq.filter (fun x => (getN tm.doc x).name = "\r")).map
          (fun b => ({ node := b } : Line)) ∧
      lines'.length =
        1 + (seq.filter (fun x => (getN tm.doc x).name = "\r")).length := by
  have hpars' : tm.parsers[0]? = some p := by
    rw [← List.get?_eq_getElem?]; exact hpars
  have hroots' : tm.doc.roots[R]? = some ⟨a, oe, none⟩ := by
    rw [← List.get?_eq_getElem?]; exact hroots
  have hrlb := rlbLoop_walk tm.doc oe seq s2 fuel [{ node := a }] 0 hwalk hfl
    (le_refl 0) (by simp)
  refine ⟨_, ?_, rfl, by simp [Nat.add_comm]⟩
  unfold rescan_linebreaks
  simp [hlines, pyGet, get_eos, hpars', hpR, hroots', hnx, hrlb]

/-- Witness for the amended C4 at `c4TM0`: the rescan rebuilds the index
of the box-break document to the sentinel line plus the box-internal
break - two records for one break, where the claim's box-excluding count
is zero. -/
theorem C4_amended_line_index_witness :
    ∃ lines', rescan_linebreaks c4TM0 10 0 = some { c4TM0 with lines := lines' } ∧
      lines' = { node := 0 } ::
        (([2, 3, 4, 5] : List Nat).filter
          (fun x => (getN c4TM0.doc x).name = "\r")).map
          (fun b => ({ node := b } : Line)) ∧
      lines'.length =
        1 + (([2, 3, 4, 5] : List Nat).filter
          (fun x => (getN c4TM0.doc x).name = "\r")).length :=
  C4_amended_line_index c4TM0 10 0 1 2 0 ⟨0, "main", false⟩ [2, 3, 4, 5]
    rfl rfl rfl (by decide) (by decide)
    (by
      refine ⟨rfl, by decide, ?_⟩
      rw [if_pos (by decide : (getN c4TM0.doc 2).symk = SymKind.magicT)]
      refine ⟨1, ⟨3, 5, some 2⟩, by decide, by decide, ?_⟩
      refine ⟨rfl, by decide, ?_⟩
      rw [if_neg (by decide : ¬ (getN c4TM0.doc 3).symk = SymKind.magicT),
        if_neg (by decide : ¬ (getN c4TM0.doc 3).cls = NodeCls.eosC)]
      refine ⟨4, by decide, ?_⟩
      refine ⟨rfl, by decide, ?_⟩
      rw [if_neg (by decide : ¬ (getN c4TM0.doc 4).symk = SymKind.magicT),
        if_neg (by decide : ¬ (getN c4TM0.doc 4).cls = NodeCls.eosC)]
      refine ⟨5, by decide, ?_⟩
      refine ⟨rfl, by decide, ?_⟩
      rw [if_neg (by decide : ¬ (getN c4TM0.doc 5).symk = SymKind.magicT),
        if_pos (by decide : (getN c4TM0.doc 5).cls = NodeCls.eosC)]
      refine ⟨2, 1, by decide, by decide, rfl⟩)
    (by decide)

end Eco
